import Mathlib

/-!
Verification of an Othello (Reversi) engine: an 8×8 board engine
(`game.py`: legality, capture computation, placement, counting) and a
depth-bounded minimax search with alpha-beta pruning (`bot.py`).

The board is embedded as a list of rows (`List (List Piece)`), mirroring
the Python list-of-lists representation; every cell read in the source is
guarded by `valid_coordinate`, which the embedding preserves.  Scores in
the search are embedded as `WithBot (WithTop ℤ)`: the evaluators return
machine integers and the alpha/beta sentinels are `float('-inf')` /
`float('inf')`, so the order on `WithBot (WithTop ℤ)` is exactly the
order Python uses to compare them.
-/

namespace Othello

/-- `Player` from `game.py`: BLACK (value 1) or WHITE (value -1). -/
inductive Player where
  | black
  | white
deriving DecidableEq, Repr

/-- The numeric value of a player (`Player.BLACK = 1`, `Player.WHITE = -1`). -/
def Player.value : Player → ℤ
  | .black => 1
  | .white => -1

/-- `Player.opponent`: returns `Player(-self.value)`. -/
def Player.opponent : Player → Player
  | .black => .white
  | .white => .black

/-- `Piece` from `game.py`: BLACK (1), NO_PIECE (0), WHITE (-1). -/
inductive Piece where
  | black
  | noPiece
  | white
deriving DecidableEq, Repr

/-- The numeric value of a piece. -/
def Piece.value : Piece → ℤ
  | .black => 1
  | .noPiece => 0
  | .white => -1

/-- `Piece.from_player(player) = Piece(player.value)`. -/
def Piece.fromPlayer : Player → Piece
  | .black => .black
  | .white => .white

/-- The board: a list of rows of cells, as in the Python list-of-lists. -/
abbrev Board := List (List Piece)

/-- `Game.BOARD_SIZE = 8`. -/
def boardSize : ℕ := 8

/-- The board invariant from the design: the grid is exactly 8×8 for the
lifetime of the object. -/
def WFBoard (b : Board) : Prop :=
  b.length = boardSize ∧ ∀ row ∈ b, row.length = boardSize

instance (b : Board) : Decidable (WFBoard b) := by
  unfold WFBoard
  infer_instance

/-- `Game.DIRS`: the 8 compass directions, in source order. -/
def dirs : List (ℤ × ℤ) :=
  [(-1, 0), (1, 0), (0, 1), (0, -1), (-1, 1), (1, 1), (-1, -1), (1, -1)]

/-- `Game.valid_coordinate(row, col)`:
`0 <= row < BOARD_SIZE and 0 <= col < BOARD_SIZE`. -/
def validCoordinate (row col : ℤ) : Bool :=
  decide (0 ≤ row ∧ row < 8 ∧ 0 ≤ col ∧ col < 8)

/-- Reading `self.board[x][y]`, as a partial operation: `none` models an
`IndexError`.  (Python additionally lets indices in `[-8, -1]` wrap
around; no read in the source can reach that case because every read is
guarded by `valid_coordinate`, so the embedding maps all out-of-range
indices to `none`.) -/
def cell? (b : Board) (x y : ℤ) : Option Piece :=
  if 0 ≤ x ∧ 0 ≤ y then
    match b[x.toNat]? with
    | some row => row[y.toNat]?
    | none => none
  else none

/-- Total cell read: the source only reads cells after a
`valid_coordinate` guard, where `cell?` is `some`; the `noPiece` default
is never reached on a well-formed board (see the totality theorems). -/
def cellD (b : Board) (x y : ℤ) : Piece :=
  (cell? b x y).getD Piece.noPiece

/-- Writing `self.board[x][y] = pc`.  The source only writes at
coordinates already validated by `is_legal_move` / `_get_endpoints`, so
the out-of-range fallback (returning the board unchanged) is dead code
on every reachable call. -/
def setCell (b : Board) (x y : ℤ) (pc : Piece) : Board :=
  if 0 ≤ x ∧ 0 ≤ y then
    match b[x.toNat]? with
    | some row => b.set x.toNat (row.set y.toNat pc)
    | none => b
  else b

/-- Fuel bound for the capture walk: along any of the 8 directions at
most 8 consecutive cells can be in bounds, so 9 loop-condition checks
always suffice for the `while` loop of `_get_endpoints` to exit on its
own condition (proved in `ray_not_all_valid`). -/
def walkFuel : ℕ := 9

/-- The loop condition of the `while` in `_get_endpoints`:
`valid_coordinate(x, y) and board[x][y].value == opponent.value`. -/
def WalkCond (b : Board) (oppVal x y : ℤ) : Prop :=
  validCoordinate x y = true ∧ (cellD b x y).value = oppVal

instance (b : Board) (oppVal x y : ℤ) : Decidable (WalkCond b oppVal x y) := by
  unfold WalkCond; infer_instance

/-- The `while` loop of `_get_endpoints`: starting at `(x, y)`, keep
walking by `(dx, dy)` while the cell is in bounds and holds the
opponent's piece (value `oppVal`), recording in `s` whether at least one
such cell was crossed.  Returns the stopping position and the flag. -/
def walkRay (b : Board) (oppVal : ℤ) (dx dy : ℤ) :
    ℕ → ℤ → ℤ → Bool → ℤ × ℤ × Bool
  | 0, x, y, s => (x, y, s)
  | f + 1, x, y, s =>
    if WalkCond b oppVal x y then
      walkRay b oppVal dx dy f (x + dx) (y + dy) true
    else (x, y, s)

/-- One direction's contribution in `_get_endpoints`: run the walk from
the adjacent cell; the direction contributes `(dx, dy, end_x, end_y)`
iff at least one opponent cell was crossed and the walk stopped on an
in-bounds cell holding the mover's own piece. -/
def dirEndpoint (b : Board) (p : Player) (row col : ℤ) (d : ℤ × ℤ) :
    Option (ℤ × ℤ × ℤ × ℤ) :=
  let w := walkRay b p.opponent.value d.1 d.2 walkFuel (row + d.1) (col + d.2) false
  if w.2.2 = true ∧ validCoordinate w.1 w.2.1 = true ∧
      (cellD b w.1 w.2.1).value = p.value then
    some (d.1, d.2, w.1, w.2.1)
  else none

/-- `Game._get_endpoints(player, row, col)`: the valid capture endpoints
over the 8 directions, in `DIRS` order. -/
def getEndpoints (b : Board) (p : Player) (row col : ℤ) :
    List (ℤ × ℤ × ℤ × ℤ) :=
  dirs.filterMap (dirEndpoint b p row col)

/-- `Game.is_legal_move(player, row, col)`: in bounds, target empty, and
at least one direction yields a capture endpoint.  The Python `and`
chain short-circuits, so the board is only read after the bounds check
succeeds. -/
def isLegalMove (b : Board) (p : Player) (row col : ℤ) : Bool :=
  validCoordinate row col &&
    decide (cellD b row col = Piece.noPiece) &&
    !(getEndpoints b p row col).isEmpty

/-- `Game.get_legal_moves_for_player(player)`: the row-major list
comprehension over the 8×8 grid filtered by `is_legal_move`. -/
def getLegalMovesForPlayer (b : Board) (p : Player) : List (ℤ × ℤ) :=
  (List.range boardSize).flatMap fun (row : ℕ) =>
    (List.range boardSize).filterMap fun (col : ℕ) =>
      if isLegalMove b p (row : ℤ) (col : ℤ) then
        some ((row : ℤ), (col : ℤ))
      else none

/-- The flip loop body of `place_piece` for one endpoint:
`while (x, y) != (end_x, end_y): board[x][y] = piece; x += dx; y += dy`.
The fuel plays the same role as in `walkRay`: a capture run has length
at most 6, so 9 checks always reach the endpoint. -/
def flipRun (pc : Piece) (dx dy ex ey : ℤ) : ℕ → ℤ → ℤ → Board → Board
  | 0, _, _, b => b
  | f + 1, x, y, b =>
    if x = ex ∧ y = ey then b
    else flipRun pc dx dy ex ey f (x + dx) (y + dy) (setCell b x y pc)

/-- `Game.place_piece(player, row, col)`: `none` models the raised
`ValueError` (`IllegalMoveError`) on an illegal move — the check comes
first, so a raising call leaves the board untouched.  On success the
target cell is set and then, for each endpoint computed on the updated
board (the walks never revisit the target cell), the run of cells
strictly before the endpoint is overwritten with the mover's piece. -/
def placePiece (b : Board) (p : Player) (row col : ℤ) : Option Board :=
  if isLegalMove b p row col then
    let pc := Piece.fromPlayer p
    let b1 := setCell b row col pc
    some ((getEndpoints b1 p row col).foldl
      (fun acc e =>
        flipRun pc e.1 e.2.1 e.2.2.1 e.2.2.2 walkFuel (row + e.1) (col + e.2.1) acc)
      b1)
  else none

/-- `Game.get_num_pieces()`: counts black and white cells with the
source's nested loop over `range(8) × range(8)`. -/
def getNumPieces (b : Board) : ℕ × ℕ :=
  (List.range boardSize).foldl (fun (acc : ℕ × ℕ) (row : ℕ) =>
    (List.range boardSize).foldl (fun (acc2 : ℕ × ℕ) (col : ℕ) =>
      if cellD b (row : ℤ) (col : ℤ) = Piece.black then (acc2.1 + 1, acc2.2)
      else if cellD b (row : ℤ) (col : ℤ) = Piece.white then (acc2.1, acc2.2 + 1)
      else acc2) acc) (0, 0)

/-- The all-empty 8×8 grid built by `Game.__init__`. -/
def emptyBoard : Board :=
  List.replicate boardSize (List.replicate boardSize Piece.noPiece)

/-- The initial layout from `Game.__init__`: BLACK at (3,3) and (4,4),
WHITE at (3,4) and (4,3). -/
def initialBoard : Board :=
  setCell (setCell (setCell (setCell emptyBoard 3 3 Piece.black)
    4 4 Piece.black) 3 4 Piece.white) 4 3 Piece.white

/-! ### The search engine (`bot.py`) -/

/-- Scores as compared by the Python search: evaluator outputs are `int`
and the sentinels are `float('-inf')` (`⊥`) / `float('inf')` (`⊤`); the
order of `WithBot (WithTop ℤ)` is the order Python uses on this mix. -/
abbrev XInt := WithBot (WithTop ℤ)

/-- A finite score (an evaluator output) as an `XInt`. -/
def XInt.fin (n : ℤ) : XInt := ((n : WithTop ℤ) : XInt)

/-- `GreedyBot.coin_score`: `black_pieces - white_pieces`. -/
def coinScore (b : Board) : ℤ :=
  ((getNumPieces b).1 : ℤ) - ((getNumPieces b).2 : ℤ)

/-- `CornersBot.corners_score`: the signed sum of the four corner cells'
piece values. -/
def cornersScore (b : Board) : ℤ :=
  (cellD b 0 0).value + (cellD b 0 (boardSize - 1 : ℕ)).value +
    (cellD b (boardSize - 1 : ℕ) 0).value +
    (cellD b (boardSize - 1 : ℕ) (boardSize - 1 : ℕ)).value

/-- `CornersBot.evaluate`: `coin_score + 25 * corners_score`. -/
def cornersEval (b : Board) : ℤ := coinScore b + 25 * cornersScore b

/-- The improvement test of `_minimax`: `operator.gt` for BLACK,
`operator.lt` for WHITE (strict in both cases). -/
def better (p : Player) (cur best : XInt) : Prop :=
  match p with
  | .black => best < cur
  | .white => cur < best

instance (p : Player) (cur best : XInt) : Decidable (better p cur best) := by
  cases p <;> simp only [better] <;> infer_instance

/-- The initial `best_eval` of `_minimax`:
`-float('inf')` for BLACK, `float('inf')` for WHITE. -/
def sentinel : Player → XInt
  | .black => ⊥
  | .white => ⊤

/-- `new_game = game.clone(); new_game.place_piece(player, row, col)`:
the board obtained by playing `mv`.  The `getD b` fallback corresponds
to the `ValueError` branch of `place_piece`, which is unreachable here
because the search only plays moves from `get_legal_moves_for_player`
(see `place_piece_raises_iff`). -/
def childBoard (b : Board) (p : Player) (mv : ℤ × ℤ) : Board :=
  (placePiece b p mv.1 mv.2).getD b

/-- The `for row, col in legal_moves` loop of `_minimax`, with `rec` the
recursive call one ply deeper: update `best_eval` / `best_move` on
strict improvement, then raise `alpha` (BLACK) or lower `beta` (WHITE)
with the child score, and break when `beta <= alpha`. -/
def abGo (rec : Board → Player → XInt → XInt → XInt × Option (ℤ × ℤ))
    (b : Board) (p : Player) :
    List (ℤ × ℤ) → XInt → XInt → XInt → Option (ℤ × ℤ) →
      XInt × Option (ℤ × ℤ)
  | [], _, _, best, bm => (best, bm)
  | mv :: rest, a, be, best, bm =>
    let cur := (rec (childBoard b p mv) p.opponent a be).1
    let best' := if better p cur best then cur else best
    let bm' := if better p cur best then some mv else bm
    let a' := if p = .black then max a cur else a
    let be' := if p = .white then min be cur else be
    if be' ≤ a' then (best', bm')
    else abGo rec b p rest a' be' best' bm'

/-- `MinimaxBot._minimax(game, player, depth, alpha, beta)`: if
`depth == 0` or the mover has no legal moves, `(evaluate(game), None)`;
otherwise the alpha-beta loop over the legal moves, starting from the
`±inf` sentinel and no move. -/
def minimaxAB (ev : Board → ℤ) :
    ℕ → Board → Player → XInt → XInt → XInt × Option (ℤ × ℤ)
  | 0, b, _, _, _ => (XInt.fin (ev b), none)
  | d + 1, b, p, a, be =>
    let moves := getLegalMovesForPlayer b p
    if moves.isEmpty then (XInt.fin (ev b), none)
    else abGo (minimaxAB ev d) b p moves a be (sentinel p) none

/-- `MinimaxBot.get_best_move`: run `_minimax` with the full window
`(-inf, inf)` and return only the move. -/
def getBestMove (ev : Board → ℤ) (depth : ℕ) (b : Board) (p : Player) :
    Option (ℤ × ℤ) :=
  (minimaxAB ev depth b p ⊥ ⊤).2

/-- The unpruned full-width loop: same strict-improvement tracking as
`abGo`, no window and no cutoff. -/
def fullGo (rec : Board → Player → XInt × Option (ℤ × ℤ))
    (b : Board) (p : Player) :
    List (ℤ × ℤ) → XInt → Option (ℤ × ℤ) → XInt × Option (ℤ × ℤ)
  | [], best, bm => (best, bm)
  | mv :: rest, best, bm =>
    let cur := (rec (childBoard b p mv) p.opponent).1
    if better p cur best then fullGo rec b p rest cur (some mv)
    else fullGo rec b p rest best bm

/-- Unpruned full-width minimax over the same game tree, with the same
evaluator, depth, base cases, enumeration order and first-move
tie-break as `minimaxAB` — the reference the pruned search is compared
against. -/
def minimaxFull (ev : Board → ℤ) :
    ℕ → Board → Player → XInt × Option (ℤ × ℤ)
  | 0, b, _ => (XInt.fin (ev b), none)
  | d + 1, b, p =>
    let moves := getLegalMovesForPlayer b p
    if moves.isEmpty then (XInt.fin (ev b), none)
    else fullGo (minimaxFull ev d) b p moves (sentinel p) none

/-! ### Basic facts about coordinates, reads and writes -/

theorem validCoordinate_iff {x y : ℤ} :
    validCoordinate x y = true ↔ 0 ≤ x ∧ x < 8 ∧ 0 ≤ y ∧ y < 8 := by
  simp [validCoordinate]

theorem player_value_ne_opponent (p : Player) : p.value ≠ p.opponent.value := by
  cases p <;> decide

theorem opponent_opponent (p : Player) : p.opponent.opponent = p := by
  cases p <;> rfl

/-- On a well-formed board, a read at a valid coordinate hits a real cell. -/
theorem cell?_isSome_of_wf {b : Board} (hb : WFBoard b) {x y : ℤ}
    (h : validCoordinate x y = true) : (cell? b x y).isSome := by
  rw [validCoordinate_iff] at h
  obtain ⟨hx0, hx8, hy0, hy8⟩ := h
  have hxlen : x.toNat < b.length := by
    rw [hb.1]; simp [boardSize]; omega
  have hrow : b[x.toNat]? = some b[x.toNat] := List.getElem?_eq_getElem hxlen
  have hmem : b[x.toNat] ∈ b := List.getElem_mem hxlen
  have hylen : y.toNat < (b[x.toNat]).length := by
    rw [hb.2 _ hmem]; simp [boardSize]; omega
  simp [cell?, hx0, hy0, hrow, List.getElem?_eq_getElem hylen]

theorem setCell_length (b : Board) (x y : ℤ) (pc : Piece) :
    (setCell b x y pc).length = b.length := by
  unfold setCell
  split
  · cases h : b[x.toNat]? <;> simp
  · rfl

theorem setCell_wf {b : Board} (hb : WFBoard b) (x y : ℤ) (pc : Piece) :
    WFBoard (setCell b x y pc) := by
  constructor
  · rw [setCell_length]; exact hb.1
  · intro row hrow
    unfold setCell at hrow
    split at hrow
    · cases h : b[x.toNat]? with
      | none => rw [h] at hrow; exact hb.2 _ hrow
      | some r =>
        rw [h] at hrow
        rcases List.mem_or_eq_of_mem_set hrow with h' | h'
        · exact hb.2 _ h'
        · subst h'
          rw [List.length_set]
          exact hb.2 _ (List.getElem?_mem h)
    · exact hb.2 _ hrow

/-- Writing at one cell does not change reads at any other coordinate. -/
theorem cell?_setCell_ne (b : Board) {x y x' y' : ℤ} (pc : Piece)
    (h : (x', y') ≠ (x, y)) :
    cell? (setCell b x y pc) x' y' = cell? b x' y' := by
  unfold setCell
  split
  · rename_i hxy
    cases hrow : b[x.toNat]? with
    | none => rfl
    | some r =>
      have hxlen : x.toNat < b.length := (List.getElem?_eq_some_iff.mp hrow).1
      unfold cell?
      split
      · rename_i hxy'
        by_cases hx : x.toNat = x'.toNat
        · have hxx : x' = x := by omega
          have hy : y'.toNat ≠ y.toNat := by
            intro hyy
            exact h (by rw [Prod.mk.injEq]; omega)
          rw [← hx, List.getElem?_set_self hxlen, hrow]
          simp only []
          rw [List.getElem?_set_ne (Ne.symm hy)]
        · rw [List.getElem?_set_ne hx]
      · rfl
  · rfl

theorem cellD_setCell_ne (b : Board) {x y x' y' : ℤ} (pc : Piece)
    (h : (x', y') ≠ (x, y)) :
    cellD (setCell b x y pc) x' y' = cellD b x' y' := by
  unfold cellD
  rw [cell?_setCell_ne b pc h]

/-- Writing at a valid cell of a well-formed board stores the piece. -/
theorem cellD_setCell_self {b : Board} (hb : WFBoard b) {x y : ℤ}
    (h : validCoordinate x y = true) (pc : Piece) :
    cellD (setCell b x y pc) x y = pc := by
  rw [validCoordinate_iff] at h
  obtain ⟨hx0, hx8, hy0, hy8⟩ := h
  have hxlen : x.toNat < b.length := by
    rw [hb.1]; simp [boardSize]; omega
  have hrow : b[x.toNat]? = some b[x.toNat] := List.getElem?_eq_getElem hxlen
  have hmem : b[x.toNat] ∈ b := List.getElem_mem hxlen
  have hylen : y.toNat < (b[x.toNat]).length := by
    rw [hb.2 _ hmem]; simp [boardSize]; omega
  unfold cellD cell? setCell
  rw [hrow]
  simp only [hx0, hy0, and_self, if_true]
  rw [List.getElem?_set_self (by simpa using hxlen)]
  simp [List.getElem?_set_self hylen]

/-! ### Characterizing the capture walk -/

theorem WalkCond_congr (b : Board) (oppVal : ℤ) {x1 y1 x2 y2 : ℤ}
    (hx : x1 = x2) (hy : y1 = y2) :
    WalkCond b oppVal x1 y1 ↔ WalkCond b oppVal x2 y2 := by
  rw [hx, hy]

/-- If the loop condition holds for the first `n` positions along the ray
and fails at position `n`, the walk stops exactly at position `n` with
the sandwiched flag raised iff `n ≠ 0`. -/
theorem walkRay_eq_of_run (b : Board) (oppVal dx dy : ℤ) :
    ∀ (n f : ℕ) (x y : ℤ) (s : Bool),
      (∀ i : ℕ, i < n → WalkCond b oppVal (x + i * dx) (y + i * dy)) →
      ¬ WalkCond b oppVal (x + n * dx) (y + n * dy) →
      n < f →
      walkRay b oppVal dx dy f x y s =
        (x + n * dx, y + n * dy, s || decide (n ≠ 0)) := by
  intro n
  induction n with
  | zero =>
    intro f x y s _ hstop hf
    simp only [Nat.cast_zero, zero_mul, add_zero] at hstop ⊢
    match f, hf with
    | f + 1, _ =>
      unfold walkRay
      rw [if_neg hstop]
      simp
  | succ n ih =>
    intro f x y s hrun hstop hf
    match f, hf with
    | f + 1, hf =>
      have h0 : WalkCond b oppVal x y := by
        have := hrun 0 (Nat.succ_pos n)
        simpa using this
      unfold walkRay
      rw [if_pos h0]
      have h1 : ∀ i : ℕ, i < n →
          WalkCond b oppVal (x + dx + i * dx) (y + dy + i * dy) := by
        intro i hi
        exact (WalkCond_congr b oppVal (by push_cast; ring) (by push_cast; ring)).mp
          (hrun (i + 1) (by omega))
      have h2 : ¬ WalkCond b oppVal (x + dx + n * dx) (y + dy + n * dy) := by
        intro hc
        exact hstop ((WalkCond_congr b oppVal (by push_cast; ring)
          (by push_cast; ring)).mp hc)
      rw [ih f (x + dx) (y + dy) true h1 h2 (by omega)]
      refine Prod.ext ?_ (Prod.ext ?_ ?_)
      · simp; push_cast; ring
      · simp; push_cast; ring
      · simp

/-- Conversely, every walk result is of that shape for some run length
`n ≤ f`. -/
theorem walkRay_inv (b : Board) (oppVal dx dy : ℤ) :
    ∀ (f : ℕ) (x y : ℤ) (s : Bool),
      ∃ n : ℕ, n ≤ f ∧
        walkRay b oppVal dx dy f x y s =
          (x + n * dx, y + n * dy, s || decide (n ≠ 0)) ∧
        (∀ i : ℕ, i < n → WalkCond b oppVal (x + i * dx) (y + i * dy)) ∧
        (n = f ∨ ¬ WalkCond b oppVal (x + n * dx, y + n * dy).1
          (x + n * dx, y + n * dy).2) := by
  intro f
  induction f with
  | zero =>
    intro x y s
    exact ⟨0, le_refl 0, by simp [walkRay], by omega, Or.inl rfl⟩
  | succ f ih =>
    intro x y s
    by_cases hc : WalkCond b oppVal x y
    · obtain ⟨n, hn, heq, hrun, hlast⟩ := ih (x + dx) (y + dy) true
      refine ⟨n + 1, by omega, ?_, ?_, ?_⟩
      · unfold walkRay
        rw [if_pos hc, heq]
        refine Prod.ext ?_ (Prod.ext ?_ ?_)
        · simp; push_cast; ring
        · simp; push_cast; ring
        · simp
      · intro i hi
        match i with
        | 0 => simpa using hc
        | i + 1 =>
          exact (WalkCond_congr b oppVal (by push_cast; ring)
            (by push_cast; ring)).mp (hrun i (by omega))
      · rcases hlast with h | h
        · exact Or.inl (by omega)
        · refine Or.inr ?_
          intro hcc
          exact h ((WalkCond_congr b oppVal (by push_cast; ring)
            (by push_cast; ring)).mp hcc)
    · refine ⟨0, by omega, ?_, by omega, Or.inr ?_⟩
      · unfold walkRay
        rw [if_neg hc]
        simp
      · simpa using hc

/-- Along any of the 8 directions, at most 8 consecutive ray positions
can be in bounds: the 9-check fuel always lets the walk stop on its own
loop condition. -/
theorem ray_not_all_valid {d : ℤ × ℤ} (hd : d ∈ dirs) (x y : ℤ) :
    ¬ ∀ i : ℕ, i ≤ 8 → validCoordinate (x + i * d.1) (y + i * d.2) = true := by
  intro hall
  have h0 := validCoordinate_iff.mp (hall 0 (by omega))
  have h8 := validCoordinate_iff.mp (hall 8 (by omega))
  push_cast at h0 h8
  fin_cases hd <;> simp at h0 h8 <;> omega

/-! ### Runs of captured pieces -/

/-- A sandwiched run of length `k` from `(row, col)` in direction
`(dx, dy)`: the `k ≥ 1` cells at offsets `1..k` are in bounds and hold
the opponent's piece, and the cell at offset `k+1` is in bounds and
holds the mover's own piece (the capture endpoint). -/
def RunTo (b : Board) (p : Player) (row col dx dy : ℤ) (k : ℕ) : Prop :=
  1 ≤ k ∧
  (∀ j : ℕ, 1 ≤ j → j ≤ k →
    validCoordinate (row + j * dx) (col + j * dy) = true ∧
    (cellD b (row + j * dx) (col + j * dy)).value = p.opponent.value) ∧
  validCoordinate (row + (k + 1 : ℕ) * dx) (col + (k + 1 : ℕ) * dy) = true ∧
  (cellD b (row + (k + 1 : ℕ) * dx) (col + (k + 1 : ℕ) * dy)).value = p.value

/-- A run is at most 8 long (its cells are consecutive in-bounds ray
positions). -/
theorem RunTo_le_eight {b : Board} {p : Player} {row col : ℤ} {d : ℤ × ℤ}
    (hd : d ∈ dirs) {k : ℕ} (h : RunTo b p row col d.1 d.2 k) : k ≤ 8 := by
  by_contra hk
  apply ray_not_all_valid hd (row + d.1) (col + d.2)
  intro i hi
  have hv := (h.2.1 (i + 1) (by omega) (by omega)).1
  have hpx : row + d.1 + (i : ℤ) * d.1 = row + ((i + 1 : ℕ) : ℤ) * d.1 := by
    push_cast; ring
  have hpy : col + d.2 + (i : ℤ) * d.2 = col + ((i + 1 : ℕ) : ℤ) * d.2 := by
    push_cast; ring
  rw [hpx, hpy]
  exact hv

theorem dirEndpoint_some {b : Board} {p : Player} {row col : ℤ} {d : ℤ × ℤ}
    (hd : d ∈ dirs) {k : ℕ} (h : RunTo b p row col d.1 d.2 k) :
    dirEndpoint b p row col d =
      some (d.1, d.2, row + (k + 1 : ℕ) * d.1, col + (k + 1 : ℕ) * d.2) := by
  obtain ⟨hk1, hrun, hvend, hcend⟩ := h
  have hk8 : k ≤ 8 := RunTo_le_eight hd ⟨hk1, hrun, hvend, hcend⟩
  have hwalk := walkRay_eq_of_run b p.opponent.value d.1 d.2 k walkFuel
    (row + d.1) (col + d.2) false
    (fun i hi => (WalkCond_congr b _ (by push_cast; ring) (by push_cast; ring)).mpr
      ⟨(hrun (i + 1) (by omega) (by omega)).1, (hrun (i + 1) (by omega) (by omega)).2⟩)
    (fun hc => player_value_ne_opponent p (by
      have h2 := hc.2
      have hpos1 : row + d.1 + (k : ℤ) * d.1 = row + ((k : ℕ) + 1 : ℕ) * d.1 := by
        push_cast; ring
      have hpos2 : col + d.2 + (k : ℤ) * d.2 = col + ((k : ℕ) + 1 : ℕ) * d.2 := by
        push_cast; ring
      rw [hpos1, hpos2] at h2
      rw [← hcend, ← h2]))
    (by unfold walkFuel; omega)
  unfold dirEndpoint
  rw [hwalk]
  have hpos1 : row + d.1 + (k : ℤ) * d.1 = row + ((k : ℕ) + 1 : ℕ) * d.1 := by
    push_cast; ring
  have hpos2 : col + d.2 + (k : ℤ) * d.2 = col + ((k : ℕ) + 1 : ℕ) * d.2 := by
    push_cast; ring
  simp only [hpos1, hpos2]
  rw [if_pos ⟨by simp [hk1]; omega, hvend, hcend⟩]

theorem dirEndpoint_inv {b : Board} {p : Player} {row col : ℤ} {d : ℤ × ℤ}
    (hd : d ∈ dirs) {e : ℤ × ℤ × ℤ × ℤ}
    (h : dirEndpoint b p row col d = some e) :
    ∃ k : ℕ, RunTo b p row col d.1 d.2 k ∧
      e = (d.1, d.2, row + (k + 1 : ℕ) * d.1, col + (k + 1 : ℕ) * d.2) := by
  obtain ⟨n, hn, heq, hrun, hlast⟩ :=
    walkRay_inv b p.opponent.value d.1 d.2 walkFuel (row + d.1) (col + d.2) false
  unfold dirEndpoint at h
  rw [heq] at h
  by_cases htest : (false || decide (n ≠ 0)) = true ∧
      validCoordinate (row + d.1 + n * d.1) (col + d.2 + n * d.2) = true ∧
      (cellD b (row + d.1 + n * d.1) (col + d.2 + n * d.2)).value = p.value
  · obtain ⟨hflag, hvend, hcend⟩ := htest
    have hn1 : 1 ≤ n := by
      simp at hflag
      omega
    have hn8 : n ≤ 8 := by
      by_contra hbig
      apply ray_not_all_valid hd (row + d.1) (col + d.2)
      intro i hi
      exact (hrun i (by unfold walkFuel at hn; omega)).1
    have hpos1 : row + d.1 + (n : ℤ) * d.1 = row + ((n : ℕ) + 1 : ℕ) * d.1 := by
      push_cast; ring
    have hpos2 : col + d.2 + (n : ℤ) * d.2 = col + ((n : ℕ) + 1 : ℕ) * d.2 := by
      push_cast; ring
    refine ⟨n, ⟨hn1, ?_, ?_, ?_⟩, ?_⟩
    · intro j hj1 hjn
      have := hrun (j - 1) (by omega)
      have hpx : row + d.1 + ((j - 1 : ℕ) : ℤ) * d.1 = row + (j : ℕ) * d.1 := by
        have : ((j - 1 : ℕ) : ℤ) = (j : ℤ) - 1 := by omega
        rw [this]; push_cast; ring
      have hpy : col + d.2 + ((j - 1 : ℕ) : ℤ) * d.2 = col + (j : ℕ) * d.2 := by
        have : ((j - 1 : ℕ) : ℤ) = (j : ℤ) - 1 := by omega
        rw [this]; push_cast; ring
      rw [hpx, hpy] at this
      exact this
    · rw [← hpos1, ← hpos2]; exact hvend
    · rw [← hpos1, ← hpos2]; exact hcend
    · rw [if_pos ⟨hflag, hvend, hcend⟩] at h
      rw [← hpos1, ← hpos2]
      exact (Option.some.inj h).symm
  · rw [if_neg htest] at h
    exact absurd h (by simp)

/-- Membership in `_get_endpoints`, characterized by sandwiched runs. -/
theorem mem_getEndpoints_iff {b : Board} {p : Player} {row col : ℤ}
    {e : ℤ × ℤ × ℤ × ℤ} :
    e ∈ getEndpoints b p row col ↔
      ∃ d ∈ dirs, ∃ k : ℕ, RunTo b p row col d.1 d.2 k ∧
        e = (d.1, d.2, row + (k + 1 : ℕ) * d.1, col + (k + 1 : ℕ) * d.2) := by
  unfold getEndpoints
  rw [List.mem_filterMap]
  constructor
  · rintro ⟨d, hd, hsome⟩
    obtain ⟨k, hk, he⟩ := dirEndpoint_inv hd hsome
    exact ⟨d, hd, k, hk, he⟩
  · rintro ⟨d, hd, k, hk, he⟩
    exact ⟨d, hd, by rw [dirEndpoint_some hd hk, he]⟩

/-! ### Legality -/

/-- Legality as the specification words it: coordinates in
`[0,8) × [0,8)`, target cell empty, and for at least one of the 8
compass directions the outward walk crosses at least one opponent cell
and stops on an in-bounds cell holding the mover's own piece. -/
def LegalSpec (b : Board) (p : Player) (row col : ℤ) : Prop :=
  validCoordinate row col = true ∧
  cellD b row col = Piece.noPiece ∧
  ∃ d ∈ dirs, ∃ k : ℕ, RunTo b p row col d.1 d.2 k

/-- C2.  `is_legal_move(player, row, col)` holds iff `(row, col)` is in
bounds, the target cell is empty, and some compass direction has a
sandwiched run: at least one opponent cell is crossed and the walk stops
on an in-bounds cell holding the mover's own piece (not by leaving the
board and not on an empty cell).  `is_legal_move` is a pure function of
the board in this embedding, so it has no side effects. -/
theorem is_legal_move_iff_legalSpec (b : Board) (p : Player) (row col : ℤ) :
    isLegalMove b p row col = true ↔ LegalSpec b p row col := by
  unfold isLegalMove LegalSpec
  rw [Bool.and_eq_true, Bool.and_eq_true]
  constructor
  · rintro ⟨⟨hv, hc⟩, hne⟩
    refine ⟨hv, by simpa using hc, ?_⟩
    have : getEndpoints b p row col ≠ [] := by
      intro hnil
      rw [hnil] at hne
      simp at hne
    obtain ⟨e, he⟩ := List.exists_mem_of_ne_nil _ this
    obtain ⟨d, hd, k, hk, _⟩ := mem_getEndpoints_iff.mp he
    exact ⟨d, hd, k, hk⟩
  · rintro ⟨hv, hc, d, hd, k, hk⟩
    refine ⟨⟨hv, by simpa using hc⟩, ?_⟩
    have : (d.1, d.2, row + (k + 1 : ℕ) * d.1, col + (k + 1 : ℕ) * d.2) ∈
        getEndpoints b p row col :=
      mem_getEndpoints_iff.mpr ⟨d, hd, k, hk, rfl⟩
    cases hge : getEndpoints b p row col with
    | nil => rw [hge] at this; simp at this
    | cons a l => simp

/-! ### The legal-move list -/

theorem filterMap_if_eq_filter_map {α β : Type} (f : α → β) (q : α → Bool)
    (l : List α) :
    l.filterMap (fun a => if q a = true then some (f a) else none) =
      (l.filter q).map f := by
  induction l with
  | nil => rfl
  | cons a l ih =>
    rw [List.filterMap_cons, List.filter_cons]
    by_cases h : q a = true
    · simp [h, ih]
    · simp [h, ih]

/-- The row-major enumeration of the 64 board cells. -/
def allMoves : List (ℤ × ℤ) :=
  (List.range boardSize).flatMap fun (row : ℕ) =>
    (List.range boardSize).map fun (col : ℕ) => ((row : ℤ), (col : ℤ))

/-- `get_legal_moves_for_player` is the row-major cell enumeration
filtered by `is_legal_move`. -/
theorem getLegalMoves_eq_filter (b : Board) (p : Player) :
    getLegalMovesForPlayer b p =
      allMoves.filter fun mv => isLegalMove b p mv.1 mv.2 := by
  unfold getLegalMovesForPlayer allMoves
  rw [List.filter_flatMap]
  congr 1
  funext row
  rw [filterMap_if_eq_filter_map (fun col : ℕ => ((row : ℤ), (col : ℤ)))
    (fun col : ℕ => isLegalMove b p (row : ℤ) (col : ℤ)), List.filter_map]
  rfl

theorem mem_getLegalMoves_iff {b : Board} {p : Player} {mv : ℤ × ℤ} :
    mv ∈ getLegalMovesForPlayer b p ↔ isLegalMove b p mv.1 mv.2 = true := by
  rw [getLegalMoves_eq_filter, List.mem_filter]
  constructor
  · exact fun h => h.2
  · intro hleg
    refine ⟨?_, hleg⟩
    have hv : validCoordinate mv.1 mv.2 = true := by
      unfold isLegalMove at hleg
      rw [Bool.and_eq_true, Bool.and_eq_true] at hleg
      exact hleg.1.1
    rw [validCoordinate_iff] at hv
    unfold allMoves
    rw [List.mem_flatMap]
    refine ⟨mv.1.toNat, ?_, ?_⟩
    · rw [List.mem_range]
      unfold boardSize
      omega
    · rw [List.mem_map]
      refine ⟨mv.2.toNat, ?_, ?_⟩
      · rw [List.mem_range]
        unfold boardSize
        omega
      · refine Prod.ext ?_ ?_ <;> simp <;> omega

/-- Row-major (lexicographic) order on cells. -/
def rowMajorLt (a c : ℤ × ℤ) : Prop :=
  a.1 < c.1 ∨ (a.1 = c.1 ∧ a.2 < c.2)

instance (a c : ℤ × ℤ) : Decidable (rowMajorLt a c) := by
  unfold rowMajorLt; infer_instance

theorem allMoves_pairwise : allMoves.Pairwise rowMajorLt := by decide

/-- The legal-move list is strictly increasing in row-major order. -/
theorem getLegalMoves_pairwise (b : Board) (p : Player) :
    (getLegalMovesForPlayer b p).Pairwise rowMajorLt := by
  rw [getLegalMoves_eq_filter]
  exact List.Pairwise.filter _ allMoves_pairwise

/-! ### When placement raises -/

/-- C6.  `place_piece` raises `IllegalMoveError` (result `none`) iff the
coordinates are out of bounds, the target cell is occupied, or no
direction captures (no capture endpoint) — equivalently, iff the move is
not in `get_legal_moves_for_player(player)`.  The legality check runs
before any write, so a raising call returns with the board untouched
(`none` carries no board; the caller's board is the unmodified input). -/
theorem place_piece_raises_iff (b : Board) (p : Player) (row col : ℤ) :
    (placePiece b p row col = none ↔
      (validCoordinate row col = false ∨ cellD b row col ≠ Piece.noPiece ∨
        getEndpoints b p row col = [])) ∧
    (placePiece b p row col = none ↔
      (row, col) ∉ getLegalMovesForPlayer b p) := by
  have hiff : placePiece b p row col = none ↔ isLegalMove b p row col = false := by
    unfold placePiece
    by_cases h : isLegalMove b p row col = true
    · rw [if_pos h]
      simp [h]
    · rw [if_neg h]
      simp
      simpa using h
  constructor
  · rw [hiff]
    unfold isLegalMove
    cases hv : validCoordinate row col <;>
      cases hc : cellD b row col == Piece.noPiece <;>
      cases hemp : (getEndpoints b p row col).isEmpty <;>
      simp_all [List.isEmpty_iff]
  · rw [hiff, mem_getLegalMoves_iff]
    simp

/-! ### Placement effects -/

/-- Positions along a ray in one of the 8 directions are distinct. -/
theorem ray_inj {d : ℤ × ℤ} (hd : d ∈ dirs) (row col : ℤ) {i j : ℤ}
    (h1 : row + i * d.1 = row + j * d.1) (h2 : col + i * d.2 = col + j * d.2) :
    i = j := by
  fin_cases hd <;> simp at h1 h2 <;> omega

/-- The walk only reads ray cells, so boards agreeing away from `(r, c)`
give the same walk whenever the ray avoids `(r, c)`. -/
theorem walkRay_congr {b1 b2 : Board} {oppVal dx dy : ℤ} (r c : ℤ)
    (hagree : ∀ u v : ℤ, (u, v) ≠ (r, c) → cellD b1 u v = cellD b2 u v) :
    ∀ (f : ℕ) (x y : ℤ) (s : Bool),
      (∀ i : ℕ, (x + i * dx, y + i * dy) ≠ (r, c)) →
      walkRay b1 oppVal dx dy f x y s = walkRay b2 oppVal dx dy f x y s := by
  intro f
  induction f with
  | zero => intro x y s _; rfl
  | succ f ih =>
    intro x y s havoid
    have h0 : (x, y) ≠ (r, c) := by
      have := havoid 0
      simpa using this
    have hcond : WalkCond b1 oppVal x y ↔ WalkCond b2 oppVal x y := by
      unfold WalkCond
      rw [hagree x y h0]
    unfold walkRay
    by_cases hc : WalkCond b1 oppVal x y
    · rw [if_pos hc, if_pos (hcond.mp hc)]
      apply ih
      intro i
      have := havoid (i + 1)
      intro hcc
      apply this
      rw [Prod.mk.injEq] at hcc ⊢
      push_cast at hcc ⊢
      constructor
      · rw [← hcc.1]; ring
      · rw [← hcc.2]; ring
    · rw [if_neg hc, if_neg (fun hcc => hc (hcond.mpr hcc))]

/-- Every position strictly along a ray differs from its origin. -/
theorem ray_avoids_origin {d : ℤ × ℤ} (hd : d ∈ dirs) (row col : ℤ) :
    ∀ i : ℕ, ((row + d.1) + i * d.1, (col + d.2) + i * d.2) ≠ (row, col) := by
  intro i heq
  rw [Prod.mk.injEq] at heq
  have e1 : row + ((i : ℤ) + 1) * d.1 = row + 0 * d.1 := by
    rw [show ((i : ℤ) + 1) * d.1 = d.1 + (i : ℤ) * d.1 by ring, ← add_assoc,
      heq.1]
    ring
  have e2 : col + ((i : ℤ) + 1) * d.2 = col + 0 * d.2 := by
    rw [show ((i : ℤ) + 1) * d.2 = d.2 + (i : ℤ) * d.2 by ring, ← add_assoc,
      heq.2]
    ring
  have := ray_inj hd row col e1 e2
  omega

/-- `place_piece` computes `_get_endpoints` after setting the target
cell, but the walks never revisit the target, so the endpoints are those
of the original board. -/
theorem dirEndpoint_setCell (b : Board) (pc : Piece) (p : Player)
    (row col : ℤ) {d : ℤ × ℤ} (hd : d ∈ dirs) :
    dirEndpoint (setCell b row col pc) p row col d = dirEndpoint b p row col d := by
  have havoid := ray_avoids_origin hd row col
  have hagree : ∀ u v : ℤ, (u, v) ≠ (row, col) →
      cellD (setCell b row col pc) u v = cellD b u v :=
    fun u v h => cellD_setCell_ne b pc h
  have hwalk := @walkRay_congr (setCell b row col pc) b p.opponent.value
    d.1 d.2 row col hagree walkFuel (row + d.1) (col + d.2) false havoid
  obtain ⟨n, hn, heq, hrun, hlast⟩ :=
    walkRay_inv b p.opponent.value d.1 d.2 walkFuel (row + d.1) (col + d.2) false
  unfold dirEndpoint
  rw [hwalk, heq]
  dsimp only
  rw [cellD_setCell_ne b pc (havoid n)]

theorem getEndpoints_setCell (b : Board) (pc : Piece) (p : Player)
    (row col : ℤ) :
    getEndpoints (setCell b row col pc) p row col = getEndpoints b p row col := by
  unfold getEndpoints
  exact List.filterMap_congr fun d hd => dirEndpoint_setCell b pc p row col hd

theorem flipRun_wf {pc : Piece} {dx dy ex ey : ℤ} :
    ∀ (f : ℕ) (x y : ℤ) (bb : Board), WFBoard bb →
      WFBoard (flipRun pc dx dy ex ey f x y bb) := by
  intro f
  induction f with
  | zero => intro x y bb hb; exact hb
  | succ f ih =>
    intro x y bb hb
    unfold flipRun
    split
    · exact hb
    · exact ih _ _ _ (setCell_wf hb x y pc)

/-- Cell-level effect of one flip loop: it overwrites exactly the `m`
cells from its start up to (excluding) the endpoint reached after `m`
steps, and touches nothing else. -/
theorem flipRun_cellD {pc : Piece} {dx dy ex ey : ℤ} :
    ∀ (m f : ℕ) (x y : ℤ) (bb : Board), WFBoard bb →
      x + m * dx = ex → y + m * dy = ey →
      (∀ i : ℕ, i < m → ¬(x + i * dx = ex ∧ y + i * dy = ey)) →
      (∀ i : ℕ, i < m → validCoordinate (x + i * dx) (y + i * dy) = true) →
      m < f →
      ∀ u v : ℤ,
        ((∃ i : ℕ, i < m ∧ u = x + i * dx ∧ v = y + i * dy) →
          cellD (flipRun pc dx dy ex ey f x y bb) u v = pc) ∧
        ((∀ i : ℕ, i < m → ¬(u = x + i * dx ∧ v = y + i * dy)) →
          cellD (flipRun pc dx dy ex ey f x y bb) u v = cellD bb u v) := by
  intro m
  induction m with
  | zero =>
    intro f x y bb hb hex hey _ _ hf u v
    match f, hf with
    | f + 1, _ =>
      constructor
      · rintro ⟨i, hi, _⟩
        omega
      · intro _
        unfold flipRun
        rw [if_pos ⟨by simpa using hex, by simpa using hey⟩]
  | succ m ih =>
    intro f x y bb hb hex hey hnot hval hf u v
    match f, hf with
    | f + 1, hf =>
      have hne0 : ¬(x = ex ∧ y = ey) := by
        have := hnot 0 (by omega)
        simpa using this
      have hstep0 : flipRun pc dx dy ex ey (f + 1) x y bb =
          if x = ex ∧ y = ey then bb
          else flipRun pc dx dy ex ey f (x + dx) (y + dy) (setCell bb x y pc) := rfl
      have hstep : flipRun pc dx dy ex ey (f + 1) x y bb =
          flipRun pc dx dy ex ey f (x + dx) (y + dy) (setCell bb x y pc) := by
        rw [hstep0, if_neg hne0]
      have hex' : (x + dx) + (m : ℤ) * dx = ex := by
        rw [← hex]
        push_cast
        ring
      have hey' : (y + dy) + (m : ℤ) * dy = ey := by
        rw [← hey]
        push_cast
        ring
      have hnot' : ∀ i : ℕ, i < m →
          ¬((x + dx) + i * dx = ex ∧ (y + dy) + i * dy = ey) := by
        intro i hi hc
        apply hnot (i + 1) (by omega)
        constructor
        · rw [← hc.1]; push_cast; ring
        · rw [← hc.2]; push_cast; ring
      have hval' : ∀ i : ℕ, i < m →
          validCoordinate ((x + dx) + i * dx) ((y + dy) + i * dy) = true := by
        intro i hi
        have hv := hval (i + 1) (by omega)
        have hpx : x + ((i + 1 : ℕ) : ℤ) * dx = (x + dx) + (i : ℤ) * dx := by
          push_cast; ring
        have hpy : y + ((i + 1 : ℕ) : ℤ) * dy = (y + dy) + (i : ℤ) * dy := by
          push_cast; ring
        rw [hpx, hpy] at hv
        exact hv
      have IH := ih f (x + dx) (y + dy) (setCell bb x y pc)
        (setCell_wf hb x y pc) hex' hey' hnot' hval' (by omega) u v
      rw [hstep]
      have hval0 : validCoordinate x y = true := by
        have := hval 0 (by omega)
        simpa using this
      constructor
      · rintro ⟨i, hi, hu, hv⟩
        match i with
        | 0 =>
          have hu0 : u = x := by simpa using hu
          have hv0 : v = y := by simpa using hv
          by_cases hafter : ∃ i' : ℕ, i' < m ∧ u = (x + dx) + i' * dx ∧
              v = (y + dy) + i' * dy
          · exact IH.1 hafter
          · have hnone : ∀ i' : ℕ, i' < m →
                ¬(u = (x + dx) + i' * dx ∧ v = (y + dy) + i' * dy) := by
              intro i' hi' hc
              exact hafter ⟨i', hi', hc⟩
            rw [IH.2 hnone, hu0, hv0]
            exact cellD_setCell_self hb hval0 pc
        | i + 1 =>
          apply IH.1
          refine ⟨i, by omega, ?_, ?_⟩
          · rw [hu]; push_cast; ring
          · rw [hv]; push_cast; ring
      · intro hnone
        have hnone' : ∀ i' : ℕ, i' < m →
            ¬(u = (x + dx) + i' * dx ∧ v = (y + dy) + i' * dy) := by
          intro i' hi' hc
          apply hnone (i' + 1) (by omega)
          constructor
          · rw [hc.1]; push_cast; ring
          · rw [hc.2]; push_cast; ring
        rw [IH.2 hnone']
        apply cellD_setCell_ne
        have h0 := hnone 0 (by omega)
        intro hc
        rw [Prod.mk.injEq] at hc
        exact h0 ⟨by simpa using hc.1, by simpa using hc.2⟩

/-- The number of steps from the move square to an endpoint along its
direction (`k + 1` for a run of length `k`). -/
def sepLen (row col : ℤ) (e : ℤ × ℤ × ℤ × ℤ) : ℕ :=
  (if e.1 = 0 then (e.2.2.2 - col) * e.2.1 else (e.2.2.1 - row) * e.1).toNat

/-- The cells strictly between the move square and the endpoint `e`:
ray offsets `1 ≤ j < sepLen` (the sandwiched run that gets flipped). -/
def FlippedCell (row col : ℤ) (e : ℤ × ℤ × ℤ × ℤ) (u v : ℤ) : Prop :=
  ∃ j : ℕ, 1 ≤ j ∧ j < sepLen row col e ∧ u = row + j * e.1 ∧ v = col + j * e.2.1

theorem sepLen_endpoint {d : ℤ × ℤ} (hd : d ∈ dirs) (row col : ℤ) (k : ℕ) :
    sepLen row col (d.1, d.2, row + (k + 1 : ℕ) * d.1, col + (k + 1 : ℕ) * d.2) =
      k + 1 := by
  unfold sepLen
  fin_cases hd <;> simp <;> push_cast <;> omega

/-- One endpoint's flip loop, on any well-formed board: it overwrites
exactly that endpoint's sandwiched cells with `pc` and nothing else. -/
theorem flipRun_endpoint_cellD {b : Board} {p : Player} {row col : ℤ}
    {q : ℤ × ℤ × ℤ × ℤ} (hq : q ∈ getEndpoints b p row col) (pc : Piece)
    {bb : Board} (hbb : WFBoard bb) (u v : ℤ) :
    (FlippedCell row col q u v →
      cellD (flipRun pc q.1 q.2.1 q.2.2.1 q.2.2.2 walkFuel
        (row + q.1) (col + q.2.1) bb) u v = pc) ∧
    (¬ FlippedCell row col q u v →
      cellD (flipRun pc q.1 q.2.1 q.2.2.1 q.2.2.2 walkFuel
        (row + q.1) (col + q.2.1) bb) u v = cellD bb u v) := by
  obtain ⟨d, hd, k, hrt, hqtup⟩ := mem_getEndpoints_iff.mp hq
  subst hqtup
  dsimp only
  obtain ⟨hk1, hrun, hvend, hcend⟩ := hrt
  have hk8 : k ≤ 8 := RunTo_le_eight hd ⟨hk1, hrun, hvend, hcend⟩
  have hsep := sepLen_endpoint hd row col k
  have hex : (row + d.1) + (k : ℤ) * d.1 = row + ((k + 1 : ℕ) : ℤ) * d.1 := by
    push_cast; ring
  have hey : (col + d.2) + (k : ℤ) * d.2 = col + ((k + 1 : ℕ) : ℤ) * d.2 := by
    push_cast; ring
  have hnot : ∀ i : ℕ, i < k →
      ¬((row + d.1) + i * d.1 = row + ((k + 1 : ℕ) : ℤ) * d.1 ∧
        (col + d.2) + i * d.2 = col + ((k + 1 : ℕ) : ℤ) * d.2) := by
    intro i hi hq2
    have e1 : row + ((i : ℤ) + 1) * d.1 = row + ((k + 1 : ℕ) : ℤ) * d.1 := by
      rw [← hq2.1]; push_cast; ring
    have e2 : col + ((i : ℤ) + 1) * d.2 = col + ((k + 1 : ℕ) : ℤ) * d.2 := by
      rw [← hq2.2]; push_cast; ring
    have := ray_inj hd row col e1 e2
    push_cast at this
    omega
  have hval : ∀ i : ℕ, i < k →
      validCoordinate ((row + d.1) + i * d.1) ((col + d.2) + i * d.2) = true := by
    intro i hi
    have hv := (hrun (i + 1) (by omega) (by omega)).1
    have hpx : row + ((i + 1 : ℕ) : ℤ) * d.1 = (row + d.1) + (i : ℤ) * d.1 := by
      push_cast; ring
    have hpy : col + ((i + 1 : ℕ) : ℤ) * d.2 = (col + d.2) + (i : ℤ) * d.2 := by
      push_cast; ring
    rw [hpx, hpy] at hv
    exact hv
  have HC := @flipRun_cellD pc d.1 d.2 (row + ((k + 1 : ℕ) : ℤ) * d.1)
    (col + ((k + 1 : ℕ) : ℤ) * d.2) k walkFuel (row + d.1) (col + d.2) bb hbb
    hex hey hnot hval (by unfold walkFuel; omega) u v
  constructor
  · intro hfc
    apply HC.1
    obtain ⟨j, hj1, hjlt, hu, hv⟩ := hfc
    rw [hsep] at hjlt
    refine ⟨j - 1, by omega, ?_, ?_⟩
    · rw [hu]
      have hjc : ((j - 1 : ℕ) : ℤ) = (j : ℤ) - 1 := by omega
      rw [hjc]
      push_cast
      ring
    · rw [hv]
      have hjc : ((j - 1 : ℕ) : ℤ) = (j : ℤ) - 1 := by omega
      rw [hjc]
      push_cast
      ring
  · intro hnf
    apply HC.2
    intro i hi hq2
    apply hnf
    refine ⟨i + 1, by omega, by rw [hsep]; omega, ?_, ?_⟩
    · rw [hq2.1]; push_cast; ring
    · rw [hq2.2]; push_cast; ring

/-- The move square itself is never among an endpoint's flipped cells. -/
theorem target_not_flipped {b : Board} {p : Player} {row col : ℤ}
    {q : ℤ × ℤ × ℤ × ℤ} (hq : q ∈ getEndpoints b p row col) :
    ¬ FlippedCell row col q row col := by
  obtain ⟨d, hd, k, _, hqtup⟩ := mem_getEndpoints_iff.mp hq
  subst hqtup
  rintro ⟨j, hj1, hjlt, hu, hv⟩
  dsimp only at hu hv
  have e1 : row + (j : ℤ) * d.1 = row + 0 * d.1 := by rw [← hu]; ring
  have e2 : col + (j : ℤ) * d.2 = col + 0 * d.2 := by rw [← hv]; ring
  have := ray_inj hd row col e1 e2
  omega

theorem foldl_flip_wf (row col : ℤ) (pc : Piece) :
    ∀ (es : List (ℤ × ℤ × ℤ × ℤ)) (bb : Board), WFBoard bb →
      WFBoard (es.foldl
        (fun acc t => flipRun pc t.1 t.2.1 t.2.2.1 t.2.2.2 walkFuel
          (row + t.1) (col + t.2.1) acc) bb) := by
  intro es
  induction es with
  | nil => exact fun bb hbb => hbb
  | cons t rest ih =>
    intro bb hbb
    exact ih _ (flipRun_wf _ _ _ _ hbb)

/-- Cell-level effect of the whole flip phase over a list of endpoints. -/
theorem foldl_flip_cellD {b : Board} {p : Player} {row col : ℤ} (pc : Piece) :
    ∀ (es : List (ℤ × ℤ × ℤ × ℤ)),
      (∀ q ∈ es, q ∈ getEndpoints b p row col) →
      ∀ (bb : Board), WFBoard bb → ∀ u v : ℤ,
      ((∃ q ∈ es, FlippedCell row col q u v) →
        cellD (es.foldl
          (fun acc t => flipRun pc t.1 t.2.1 t.2.2.1 t.2.2.2 walkFuel
            (row + t.1) (col + t.2.1) acc) bb) u v = pc) ∧
      ((∀ q ∈ es, ¬ FlippedCell row col q u v) →
        cellD (es.foldl
          (fun acc t => flipRun pc t.1 t.2.1 t.2.2.1 t.2.2.2 walkFuel
            (row + t.1) (col + t.2.1) acc) bb) u v = cellD bb u v) := by
  intro es
  induction es with
  | nil =>
    intro _ bb hbb u v
    constructor
    · rintro ⟨q, hq, _⟩
      cases hq
    · intro _
      rfl
  | cons t rest ih =>
    intro hmem bb hbb u v
    have ht0 : t ∈ getEndpoints b p row col := hmem t (by simp)
    have hbb' : WFBoard (flipRun pc t.1 t.2.1 t.2.2.1 t.2.2.2 walkFuel
        (row + t.1) (col + t.2.1) bb) := flipRun_wf _ _ _ _ hbb
    have IH := ih (fun r hr => hmem r (by simp [hr])) _ hbb' u v
    simp only [List.foldl_cons]
    constructor
    · rintro ⟨r, hr, hfc⟩
      rcases List.mem_cons.mp hr with hrt | hr'
      · subst hrt
        by_cases hrest : ∃ r' ∈ rest, FlippedCell row col r' u v
        · exact IH.1 hrest
        · have hnone : ∀ r' ∈ rest, ¬ FlippedCell row col r' u v := by
            intro r' hr2 hfc2
            exact hrest ⟨r', hr2, hfc2⟩
          rw [IH.2 hnone]
          exact (flipRun_endpoint_cellD ht0 pc hbb u v).1 hfc
      · exact IH.1 ⟨r, hr', hfc⟩
    · intro hnone
      rw [IH.2 (fun r hr => hnone r (by simp [hr]))]
      exact (flipRun_endpoint_cellD ht0 pc hbb u v).2 (hnone t (by simp))

/-- On a legal move, `place_piece` sets the target cell, overwrites each
endpoint's sandwiched cells, and leaves every other cell unchanged. -/
theorem placePiece_cellD_spec {b : Board} {p : Player} {row col : ℤ}
    (hb : WFBoard b) (hleg : isLegalMove b p row col = true) :
    ∃ b', placePiece b p row col = some b' ∧ WFBoard b' ∧
      cellD b' row col = Piece.fromPlayer p ∧
      (∀ q ∈ getEndpoints b p row col, ∀ u v : ℤ,
        FlippedCell row col q u v → cellD b' u v = Piece.fromPlayer p) ∧
      (∀ u v : ℤ, ¬(u = row ∧ v = col) →
        (∀ q ∈ getEndpoints b p row col, ¬ FlippedCell row col q u v) →
        cellD b' u v = cellD b u v) := by
  have hvalid : validCoordinate row col = true := by
    unfold isLegalMove at hleg
    rw [Bool.and_eq_true, Bool.and_eq_true] at hleg
    exact hleg.1.1
  have hb1wf : WFBoard (setCell b row col (Piece.fromPlayer p)) :=
    setCell_wf hb row col (Piece.fromPlayer p)
  have HF := foldl_flip_cellD (Piece.fromPlayer p) (getEndpoints b p row col)
    (fun q h => h) _ hb1wf
  unfold placePiece
  rw [if_pos hleg]
  dsimp only
  rw [getEndpoints_setCell]
  refine ⟨_, rfl, foldl_flip_wf row col _ _ _ hb1wf, ?_, ?_, ?_⟩
  · have hnotf : ∀ q ∈ getEndpoints b p row col,
        ¬ FlippedCell row col q row col := fun q hq => target_not_flipped hq
    rw [(HF row col).2 hnotf]
    exact cellD_setCell_self hb hvalid _
  · intro q hq u v hfc
    exact (HF u v).1 ⟨q, hq, hfc⟩
  · intro u v hne hnf
    rw [(HF u v).2 hnf]
    apply cellD_setCell_ne
    intro hcc
    rw [Prod.mk.injEq] at hcc
    exact hne ⟨hcc.1, hcc.2⟩

/-- C3.  For every well-formed board, player, and move legal for that
player, `place_piece` sets the target cell to the player's piece,
overwrites with the player's piece every cell strictly between the
target and the capture endpoint in every direction that has a valid
capture endpoint, and leaves every other cell of the board unchanged. -/
theorem place_piece_effect {b : Board} {p : Player} {row col : ℤ}
    (hb : WFBoard b) (hleg : isLegalMove b p row col = true) :
    ∃ b', placePiece b p row col = some b' ∧ WFBoard b' ∧
      cellD b' row col = Piece.fromPlayer p ∧
      (∀ q ∈ getEndpoints b p row col, ∀ u v : ℤ,
        FlippedCell row col q u v → cellD b' u v = Piece.fromPlayer p) ∧
      (∀ u v : ℤ, ¬(u = row ∧ v = col) →
        (∀ q ∈ getEndpoints b p row col, ¬ FlippedCell row col q u v) →
        cellD b' u v = cellD b u v) :=
  placePiece_cellD_spec hb hleg

/-- Witness for C3 at a concrete input: BLACK's legal opening move
(2, 4) on the initial board. -/
theorem place_piece_effect_witness :
    WFBoard initialBoard ∧ isLegalMove initialBoard Player.black 2 4 = true ∧
    (∃ b', placePiece initialBoard Player.black 2 4 = some b' ∧ WFBoard b' ∧
      cellD b' 2 4 = Piece.fromPlayer Player.black ∧
      (∀ q ∈ getEndpoints initialBoard Player.black 2 4, ∀ u v : ℤ,
        FlippedCell 2 4 q u v → cellD b' u v = Piece.fromPlayer Player.black) ∧
      (∀ u v : ℤ, ¬(u = 2 ∧ v = 4) →
        (∀ q ∈ getEndpoints initialBoard Player.black 2 4,
          ¬ FlippedCell 2 4 q u v) →
        cellD b' u v = cellD initialBoard u v)) :=
  ⟨by decide, by decide, place_piece_effect (by decide) (by decide)⟩

/-! ### The concrete opening capture -/

/-- C7 counterexample: on the initial board (BLACK at (3,3) and (4,4),
WHITE at (3,4) and (4,3)), the move (2,3) is NOT legal for BLACK — no
direction sandwiches a white run — so `place_piece` raises
(`none`) instead of succeeding.  (The repository's own test expects
exactly this `ValueError`.) -/
theorem initial_black_2_3_raises :
    placePiece initialBoard Player.black 2 3 = none ∧
    isLegalMove initialBoard Player.black 2 3 = false := by decide

/-- C7 (amended).  Starting from the initial board, BLACK placing at
row 2, col 4 succeeds: board[2][4] becomes BLACK, board[3][4] (the
single sandwiched run) flips to BLACK, board[3][3] remains BLACK, and no
cell outside the placed cell and that run changes. -/
theorem initial_black_2_4_effect :
    ∃ b', placePiece initialBoard Player.black 2 4 = some b' ∧
      cellD b' 2 4 = Piece.black ∧ cellD b' 3 4 = Piece.black ∧
      cellD b' 3 3 = Piece.black ∧
      ∀ u v : ℤ, ¬(u = 2 ∧ v = 4) → ¬(u = 3 ∧ v = 4) →
        cellD b' u v = cellD initialBoard u v := by
  obtain ⟨b', hsome, hwf, htgt, hflip, hframe⟩ :=
    @placePiece_cellD_spec initialBoard Player.black 2 4 (by decide) (by decide)
  have hE : getEndpoints initialBoard Player.black 2 4 = [(1, 0, 4, 4)] := by
    decide
  have honly : ∀ u v : ℤ,
      FlippedCell 2 4 ((1 : ℤ), (0 : ℤ), (4 : ℤ), (4 : ℤ)) u v →
        u = 3 ∧ v = 4 := by
    rintro u v ⟨j, hj1, hjlt, hu, hv⟩
    have hs : sepLen 2 4 ((1 : ℤ), (0 : ℤ), (4 : ℤ), (4 : ℤ)) = 2 := by decide
    rw [hs] at hjlt
    have hj : j = 1 := by omega
    subst hj
    norm_num at hu hv
    exact ⟨by omega, by omega⟩
  have hnot33 : ∀ q ∈ getEndpoints initialBoard Player.black 2 4,
      ¬ FlippedCell 2 4 q 3 3 := by
    intro q hq
    rw [hE] at hq
    simp at hq
    subst hq
    intro hfc
    have := honly 3 3 hfc
    omega
  refine ⟨b', hsome, htgt, ?_, ?_, ?_⟩
  · have hq : ((1 : ℤ), (0 : ℤ), (4 : ℤ), (4 : ℤ)) ∈
        getEndpoints initialBoard Player.black 2 4 := by
      rw [hE]; simp
    have hfc : FlippedCell 2 4 ((1 : ℤ), (0 : ℤ), (4 : ℤ), (4 : ℤ)) 3 4 := by
      refine ⟨1, by omega, ?_, by norm_num, by norm_num⟩
      have hs : sepLen 2 4 ((1 : ℤ), (0 : ℤ), (4 : ℤ), (4 : ℤ)) = 2 := by decide
      omega
    exact hflip _ hq 3 4 hfc
  · have := hframe 3 3 (by omega) hnot33
    rw [this]
    decide
  · intro u v h1 h2
    apply hframe u v h1
    intro q hq
    rw [hE] at hq
    simp at hq
    subst hq
    intro hfc
    exact h2 (honly u v hfc)

/-! ### Counting pieces -/

/-- The inner column loop of `get_num_pieces` adds the black and white
counts of its row to the accumulator. -/
theorem getNumPieces_inner (b : Board) (row : ℕ) :
    ∀ (cols : List ℕ) (acc : ℕ × ℕ),
      cols.foldl (fun (acc2 : ℕ × ℕ) (col : ℕ) =>
        if cellD b (row : ℤ) (col : ℤ) = Piece.black then (acc2.1 + 1, acc2.2)
        else if cellD b (row : ℤ) (col : ℤ) = Piece.white then (acc2.1, acc2.2 + 1)
        else acc2) acc =
      (acc.1 + cols.countP (fun (col : ℕ) => cellD b (row : ℤ) (col : ℤ) == Piece.black),
       acc.2 + cols.countP (fun (col : ℕ) => cellD b (row : ℤ) (col : ℤ) == Piece.white)) := by
  intro cols
  induction cols with
  | nil => intro acc; simp
  | cons c cs ih =>
    intro acc
    rw [List.foldl_cons, List.countP_cons, List.countP_cons, ih]
    by_cases h1 : cellD b (row : ℤ) (c : ℤ) = Piece.black
    · rw [if_pos h1]
      have h2 : cellD b (row : ℤ) (c : ℤ) ≠ Piece.white := by rw [h1]; decide
      refine Prod.ext ?_ ?_ <;> simp [h1, h2] <;> omega
    · rw [if_neg h1]
      by_cases h2 : cellD b (row : ℤ) (c : ℤ) = Piece.white
      · rw [if_pos h2]
        refine Prod.ext ?_ ?_ <;> simp [h1, h2] <;> omega
      · rw [if_neg h2]
        refine Prod.ext ?_ ?_ <;> simp [h1, h2]

/-- `get_num_pieces` equals the black/white counts over the row-major
cell enumeration. -/
theorem getNumPieces_eq_countP (b : Board) :
    getNumPieces b =
      (allMoves.countP (fun mv => cellD b mv.1 mv.2 == Piece.black),
       allMoves.countP (fun mv => cellD b mv.1 mv.2 == Piece.white)) := by
  unfold getNumPieces allMoves
  have houter : ∀ (rows : List ℕ) (acc : ℕ × ℕ),
      rows.foldl (fun (acc : ℕ × ℕ) (row : ℕ) =>
        (List.range boardSize).foldl (fun (acc2 : ℕ × ℕ) (col : ℕ) =>
          if cellD b (row : ℤ) (col : ℤ) = Piece.black then (acc2.1 + 1, acc2.2)
          else if cellD b (row : ℤ) (col : ℤ) = Piece.white then (acc2.1, acc2.2 + 1)
          else acc2) acc) acc =
      (acc.1 + (rows.flatMap fun (r : ℕ) =>
          (List.range boardSize).map fun (c : ℕ) => ((r : ℤ), (c : ℤ))).countP
            (fun mv => cellD b mv.1 mv.2 == Piece.black),
       acc.2 + (rows.flatMap fun (r : ℕ) =>
          (List.range boardSize).map fun (c : ℕ) => ((r : ℤ), (c : ℤ))).countP
            (fun mv => cellD b mv.1 mv.2 == Piece.white)) := by
    intro rows
    induction rows with
    | nil => intro acc; simp
    | cons r rs ih =>
      intro acc
      rw [List.foldl_cons, getNumPieces_inner, ih, List.flatMap_cons,
        List.countP_append, List.countP_append, List.countP_map,
        List.countP_map]
      have hc1 : ((fun mv : ℤ × ℤ => cellD b mv.1 mv.2 == Piece.black) ∘
          fun (c : ℕ) => ((r : ℤ), (c : ℤ))) =
          fun (col : ℕ) => cellD b (r : ℤ) (col : ℤ) == Piece.black := rfl
      have hc2 : ((fun mv : ℤ × ℤ => cellD b mv.1 mv.2 == Piece.white) ∘
          fun (c : ℕ) => ((r : ℤ), (c : ℤ))) =
          fun (col : ℕ) => cellD b (r : ℤ) (col : ℤ) == Piece.white := rfl
      rw [hc1, hc2]
      refine Prod.ext ?_ ?_ <;> simp <;> omega
  rw [houter]
  simp

/-- Membership in the cell enumeration is exactly in-bounds-ness. -/
theorem mem_allMoves_iff {mv : ℤ × ℤ} :
    mv ∈ allMoves ↔ validCoordinate mv.1 mv.2 = true := by
  constructor
  · intro h
    unfold allMoves at h
    rw [List.mem_flatMap] at h
    obtain ⟨r, hr, h⟩ := h
    rw [List.mem_map] at h
    obtain ⟨c, hc, h⟩ := h
    rw [List.mem_range] at hr hc
    rw [← h, validCoordinate_iff]
    unfold boardSize at hr hc
    refine ⟨by simp, by push_cast; omega, by simp, by push_cast; omega⟩
  · intro h
    rw [validCoordinate_iff] at h
    unfold allMoves
    rw [List.mem_flatMap]
    refine ⟨mv.1.toNat, ?_, ?_⟩
    · rw [List.mem_range]
      unfold boardSize
      omega
    · rw [List.mem_map]
      refine ⟨mv.2.toNat, ?_, ?_⟩
      · rw [List.mem_range]
        unfold boardSize
        omega
      · refine Prod.ext ?_ ?_ <;> simp <;> omega

theorem allMoves_nodup : allMoves.Nodup := by decide

/-- Bookkeeping identity for counts under a pointwise rewrite: cells
where `C` is false keep their old content. -/
theorem countP_split {α : Type} (l : List α) (P P' C : α → Bool)
    (h1 : ∀ a ∈ l, C a = false → P' a = P a) :
    l.countP P' + l.countP (fun a => C a && P a) =
      l.countP P + l.countP (fun a => C a && P' a) := by
  induction l with
  | nil => simp
  | cons a t ih =>
    have iht := ih fun x hx hc => h1 x (List.mem_cons.mpr (Or.inr hx)) hc
    simp only [List.countP_cons]
    by_cases hC : C a = true
    · by_cases hP : P a = true <;> by_cases hP' : P' a = true <;>
        simp [hC, hP, hP'] <;> omega
    · have heq := h1 a (List.mem_cons.mpr (Or.inl rfl)) (by simpa using hC)
      by_cases hP : P a = true <;>
        simp [hC, hP, heq] <;> omega

theorem countP_or_disjoint {α : Type} (l : List α) (A B : α → Bool)
    (h : ∀ a ∈ l, ¬(A a = true ∧ B a = true)) :
    l.countP (fun a => A a || B a) = l.countP A + l.countP B := by
  induction l with
  | nil => simp
  | cons a t ih =>
    have iht := ih fun x hx => h x (List.mem_cons.mpr (Or.inr hx))
    have ha := h a (List.mem_cons.mpr (Or.inl rfl))
    simp only [List.countP_cons]
    by_cases hA : A a = true <;> by_cases hB : B a = true <;>
      simp [hA, hB, iht] <;> first | omega | exact absurd ⟨hA, hB⟩ ha

theorem countP_eq_one_of_nodup {α : Type} [DecidableEq α] :
    ∀ (l : List α), l.Nodup → ∀ t : α, t ∈ l →
      l.countP (fun a => decide (a = t)) = 1 := by
  intro l
  induction l with
  | nil => intro _ t ht; cases ht
  | cons a s ih =>
    intro hnd t ht
    rw [List.countP_cons]
    by_cases hta : t = a
    · subst hta
      have hz : s.countP (fun x => decide (x = t)) = 0 := by
        rw [List.countP_eq_zero]
        intro x hx
        simp only [decide_eq_true_eq]
        intro hxt
        subst hxt
        exact (List.nodup_cons.mp hnd).1 hx
      simp [hz]
    · have hts : t ∈ s := by
        rcases List.mem_cons.mp ht with h | h
        · exact absurd h hta
        · exact h
      have hne : ¬(a = t) := fun h => hta h.symm
      have h1 : s.countP (fun x => decide (x = t)) = 1 :=
        ih (List.nodup_cons.mp hnd).2 t hts
      simp [h1, hne]

instance (row col : ℤ) (q : ℤ × ℤ × ℤ × ℤ) (u v : ℤ) :
    Decidable (FlippedCell row col q u v) :=
  decidable_of_iff (∃ j ∈ List.range (sepLen row col q),
      1 ≤ j ∧ u = row + j * q.1 ∧ v = col + j * q.2.1) (by
    unfold FlippedCell
    constructor
    · rintro ⟨j, hj, h1, hu, hv⟩
      exact ⟨j, h1, List.mem_range.mp hj, hu, hv⟩
    · rintro ⟨j, h1, hlt, hu, hv⟩
      exact ⟨j, List.mem_range.mpr hlt, h1, hu, hv⟩)

theorem piece_eq_of_value {pc : Piece} {pl : Player}
    (h : pc.value = pl.value) : pc = Piece.fromPlayer pl := by
  cases pc <;> cases pl <;> first | rfl | simp [Piece.value, Player.value] at h

/-- A flipped cell held the opponent's piece on the original board and
is in bounds. -/
theorem flippedCell_was_opponent {b : Board} {p : Player} {row col : ℤ}
    {q : ℤ × ℤ × ℤ × ℤ} (hq : q ∈ getEndpoints b p row col) {u v : ℤ}
    (hfc : FlippedCell row col q u v) :
    validCoordinate u v = true ∧ cellD b u v = Piece.fromPlayer p.opponent := by
  obtain ⟨d, hd, k, hrt, hqtup⟩ := mem_getEndpoints_iff.mp hq
  subst hqtup
  obtain ⟨j, hj1, hjlt, hu, hv⟩ := hfc
  dsimp only at hu hv
  rw [sepLen_endpoint hd row col k] at hjlt
  have hcell := hrt.2.1 j hj1 (by omega)
  rw [← hu, ← hv] at hcell
  exact ⟨hcell.1, piece_eq_of_value hcell.2⟩

/-- Some cell is flipped: the first endpoint's adjacent cell. -/
theorem exists_flippedCell {b : Board} {p : Player} {row col : ℤ}
    {q : ℤ × ℤ × ℤ × ℤ} (hq : q ∈ getEndpoints b p row col) :
    ∃ u v : ℤ, FlippedCell row col q u v ∧ validCoordinate u v = true := by
  obtain ⟨d, hd, k, hrt, hqtup⟩ := mem_getEndpoints_iff.mp hq
  subst hqtup
  have hk := hrt.1
  refine ⟨row + (1 : ℕ) * d.1, col + (1 : ℕ) * d.2, ?_, ?_⟩
  · refine ⟨1, le_refl 1, ?_, by dsimp only, by dsimp only⟩
    rw [sepLen_endpoint hd row col k]
    omega
  · exact (hrt.2.1 1 (le_refl 1) hrt.1).1

/-- Boolean test for being the placed cell. -/
def targetCellB (row col : ℤ) : ℤ × ℤ → Bool :=
  fun mv => decide (mv = (row, col))

/-- Boolean test for being flipped by some endpoint of the move. -/
def flippedCellB (b : Board) (p : Player) (row col : ℤ) : ℤ × ℤ → Bool :=
  fun mv => (getEndpoints b p row col).any fun q =>
    decide (FlippedCell row col q mv.1 mv.2)

/-- Boolean test for being changed by the move. -/
def changedCellB (b : Board) (p : Player) (row col : ℤ) : ℤ × ℤ → Bool :=
  fun mv => targetCellB row col mv || flippedCellB b p row col mv

theorem flippedCellB_iff {b : Board} {p : Player} {row col : ℤ}
    {mv : ℤ × ℤ} :
    flippedCellB b p row col mv = true ↔
      ∃ q ∈ getEndpoints b p row col, FlippedCell row col q mv.1 mv.2 := by
  unfold flippedCellB
  rw [List.any_eq_true]
  simp

/-- C10.  On a legal move: the total number of occupied cells grows by
exactly one, the mover's count grows by at least two, the opponent's
count shrinks by at least one, and no occupied cell becomes empty. -/
theorem place_piece_counts {b : Board} {p : Player} {row col : ℤ}
    (hb : WFBoard b) (hleg : isLegalMove b p row col = true) :
    ∃ b', placePiece b p row col = some b' ∧
      (getNumPieces b').1 + (getNumPieces b').2 =
        (getNumPieces b).1 + (getNumPieces b).2 + 1 ∧
      (p = Player.black →
        (getNumPieces b).1 + 2 ≤ (getNumPieces b').1 ∧
        (getNumPieces b').2 + 1 ≤ (getNumPieces b).2) ∧
      (p = Player.white →
        (getNumPieces b).2 + 2 ≤ (getNumPieces b').2 ∧
        (getNumPieces b').1 + 1 ≤ (getNumPieces b).1) ∧
      (∀ u v : ℤ, cellD b u v ≠ Piece.noPiece → cellD b' u v ≠ Piece.noPiece) := by
  obtain ⟨b', hsome, hwf, htgt, hflip, hframe⟩ := placePiece_cellD_spec hb hleg
  have hlegparts := hleg
  unfold isLegalMove at hlegparts
  rw [Bool.and_eq_true, Bool.and_eq_true] at hlegparts
  have hvalid := hlegparts.1.1
  have hcellempty : cellD b row col = Piece.noPiece := by
    simpa using hlegparts.1.2
  have hEne : getEndpoints b p row col ≠ [] := by
    intro hnil
    rw [hnil] at hlegparts
    simp at hlegparts
  have hmine_ne_empty : Piece.fromPlayer p ≠ Piece.noPiece := by
    cases p <;> decide
  have hopp_ne_mine : Piece.fromPlayer p.opponent ≠ Piece.fromPlayer p := by
    cases p <;> decide
  have hempty_ne_opp : Piece.noPiece ≠ Piece.fromPlayer p.opponent := by
    cases p <;> decide
  have hchg_new : ∀ mv : ℤ × ℤ, changedCellB b p row col mv = true →
      cellD b' mv.1 mv.2 = Piece.fromPlayer p := by
    intro mv hc
    unfold changedCellB at hc
    rw [Bool.or_eq_true] at hc
    rcases hc with hT | hF
    · unfold targetCellB at hT
      rw [decide_eq_true_eq] at hT
      rw [hT]
      exact htgt
    · rw [flippedCellB_iff] at hF
      obtain ⟨q, hq, hfc⟩ := hF
      exact hflip q hq mv.1 mv.2 hfc
  have hchg_old : ∀ mv : ℤ × ℤ, changedCellB b p row col mv = true →
      cellD b mv.1 mv.2 ≠ Piece.fromPlayer p := by
    intro mv hc
    unfold changedCellB at hc
    rw [Bool.or_eq_true] at hc
    rcases hc with hT | hF
    · unfold targetCellB at hT
      rw [decide_eq_true_eq] at hT
      rw [hT]
      dsimp only
      intro hcc
      rw [hcellempty] at hcc
      exact hmine_ne_empty hcc.symm
    · rw [flippedCellB_iff] at hF
      obtain ⟨q, hq, hfc⟩ := hF
      rw [(flippedCell_was_opponent hq hfc).2]
      exact hopp_ne_mine
  have hunch : ∀ mv : ℤ × ℤ, changedCellB b p row col mv = false →
      cellD b' mv.1 mv.2 = cellD b mv.1 mv.2 := by
    intro mv hc
    unfold changedCellB at hc
    rw [Bool.or_eq_false_iff] at hc
    apply hframe
    · intro hcc
      unfold targetCellB at hc
      rw [decide_eq_false_iff_not] at hc
      exact absurd (Prod.ext hcc.1 hcc.2) hc.1
    · intro q hq hfc
      have := hc.2
      unfold flippedCellB at this
      rw [List.any_eq_false] at this
      exact absurd (decide_eq_true hfc) (by simpa using this q hq)
  have hM : allMoves.countP
        (fun mv => cellD b' mv.1 mv.2 == Piece.fromPlayer p) =
      allMoves.countP (fun mv => cellD b mv.1 mv.2 == Piece.fromPlayer p) +
        allMoves.countP (changedCellB b p row col) := by
    have hs := countP_split allMoves
      (fun mv => cellD b mv.1 mv.2 == Piece.fromPlayer p)
      (fun mv => cellD b' mv.1 mv.2 == Piece.fromPlayer p)
      (changedCellB b p row col)
      (fun mv _ hc => by dsimp only; rw [hunch mv hc])
    dsimp only at hs
    have h0 : allMoves.countP (fun mv => changedCellB b p row col mv &&
        (cellD b mv.1 mv.2 == Piece.fromPlayer p)) = 0 := by
      rw [List.countP_eq_zero]
      intro mv _
      rw [Bool.and_eq_true]
      rintro ⟨hc, hpb⟩
      rw [beq_iff_eq] at hpb
      exact hchg_old mv hc hpb
    have h1 : allMoves.countP (fun mv => changedCellB b p row col mv &&
        (cellD b' mv.1 mv.2 == Piece.fromPlayer p)) =
        allMoves.countP (changedCellB b p row col) := by
      apply List.countP_congr
      intro mv _
      by_cases hc : changedCellB b p row col mv = true
      · simp [hc, hchg_new mv hc]
      · have hc' : changedCellB b p row col mv = false := Bool.eq_false_iff.mpr hc
        simp [hc']
    omega
  have hO : allMoves.countP
        (fun mv => cellD b' mv.1 mv.2 == Piece.fromPlayer p.opponent) +
        allMoves.countP (flippedCellB b p row col) =
      allMoves.countP
        (fun mv => cellD b mv.1 mv.2 == Piece.fromPlayer p.opponent) := by
    have hs := countP_split allMoves
      (fun mv => cellD b mv.1 mv.2 == Piece.fromPlayer p.opponent)
      (fun mv => cellD b' mv.1 mv.2 == Piece.fromPlayer p.opponent)
      (changedCellB b p row col)
      (fun mv _ hc => by dsimp only; rw [hunch mv hc])
    dsimp only at hs
    have h0 : allMoves.countP (fun mv => changedCellB b p row col mv &&
        (cellD b' mv.1 mv.2 == Piece.fromPlayer p.opponent)) = 0 := by
      rw [List.countP_eq_zero]
      intro mv _
      rw [Bool.and_eq_true]
      rintro ⟨hc, hpb⟩
      rw [beq_iff_eq] at hpb
      rw [hchg_new mv hc] at hpb
      exact hopp_ne_mine hpb.symm
    have h1 : allMoves.countP (fun mv => changedCellB b p row col mv &&
        (cellD b mv.1 mv.2 == Piece.fromPlayer p.opponent)) =
        allMoves.countP (flippedCellB b p row col) := by
      apply List.countP_congr
      intro mv _
      by_cases hf : flippedCellB b p row col mv = true
      · have hc : changedCellB b p row col mv = true := by
          unfold changedCellB
          rw [hf, Bool.or_true]
        obtain ⟨q, hq, hfc⟩ := flippedCellB_iff.mp hf
        simp [hc, hf, (flippedCell_was_opponent hq hfc).2]
      · have hf' : flippedCellB b p row col mv = false := Bool.eq_false_iff.mpr hf
        by_cases hc : changedCellB b p row col mv = true
        · have hT : targetCellB row col mv = true := by
            have hcc := hc
            unfold changedCellB at hcc
            rw [Bool.or_eq_true] at hcc
            rcases hcc with h | h
            · exact h
            · exact absurd h hf
          unfold targetCellB at hT
          rw [decide_eq_true_eq] at hT
          subst hT
          simp only [hc, hf', Bool.true_and]
          rw [hcellempty]
          simp [hempty_ne_opp]
        · have hc' : changedCellB b p row col mv = false :=
            Bool.eq_false_iff.mpr hc
          simp [hc', hf']
    omega
  have hC1 : allMoves.countP (changedCellB b p row col) =
      1 + allMoves.countP (flippedCellB b p row col) := by
    unfold changedCellB
    rw [countP_or_disjoint]
    · have htmem : ((row, col) : ℤ × ℤ) ∈ allMoves :=
        mem_allMoves_iff.mpr hvalid
      have h1 : allMoves.countP (targetCellB row col) = 1 := by
        unfold targetCellB
        exact countP_eq_one_of_nodup allMoves allMoves_nodup (row, col) htmem
      rw [h1]
    · intro mv _ hTF
      obtain ⟨hT, hF⟩ := hTF
      unfold targetCellB at hT
      rw [decide_eq_true_eq] at hT
      obtain ⟨q, hq, hfc⟩ := flippedCellB_iff.mp hF
      rw [hT] at hfc
      exact target_not_flipped hq hfc
  have hF1 : 1 ≤ allMoves.countP (flippedCellB b p row col) := by
    obtain ⟨q, hq⟩ := List.exists_mem_of_ne_nil _ hEne
    obtain ⟨u, v, hfc, hval⟩ := exists_flippedCell hq
    have hpos : 0 < allMoves.countP (flippedCellB b p row col) := by
      rw [List.countP_pos]
      refine ⟨(u, v), mem_allMoves_iff.mpr hval, ?_⟩
      rw [flippedCellB_iff]
      exact ⟨q, hq, hfc⟩
    omega
  have hNB' := getNumPieces_eq_countP b'
  have hNB := getNumPieces_eq_countP b
  refine ⟨b', hsome, ?_, ?_, ?_, ?_⟩
  · cases p with
    | black =>
      have hrw : Piece.fromPlayer Player.black = Piece.black := rfl
      have hrw2 : Piece.fromPlayer Player.black.opponent = Piece.white := rfl
      rw [hrw] at hM
      rw [hrw2] at hO
      rw [hNB', hNB]
      dsimp only
      omega
    | white =>
      have hrw : Piece.fromPlayer Player.white = Piece.white := rfl
      have hrw2 : Piece.fromPlayer Player.white.opponent = Piece.black := rfl
      rw [hrw] at hM
      rw [hrw2] at hO
      rw [hNB', hNB]
      dsimp only
      omega
  · intro hp
    subst hp
    have hrw : Piece.fromPlayer Player.black = Piece.black := rfl
    have hrw2 : Piece.fromPlayer Player.black.opponent = Piece.white := rfl
    rw [hrw] at hM
    rw [hrw2] at hO
    rw [hNB', hNB]
    dsimp only
    omega
  · intro hp
    subst hp
    have hrw : Piece.fromPlayer Player.white = Piece.white := rfl
    have hrw2 : Piece.fromPlayer Player.white.opponent = Piece.black := rfl
    rw [hrw] at hM
    rw [hrw2] at hO
    rw [hNB', hNB]
    dsimp only
    omega
  · intro u v hne
    by_cases hc : changedCellB b p row col (u, v) = true
    · have := hchg_new (u, v) hc
      dsimp only at this
      rw [this]
      exact hmine_ne_empty
    · have := hunch (u, v) (Bool.eq_false_iff.mpr hc)
      dsimp only at this
      rw [this]
      exact hne

/-- Witness for C10 at the concrete opening move. -/
theorem place_piece_counts_witness :
    WFBoard initialBoard ∧ isLegalMove initialBoard Player.black 2 4 = true ∧
    (∃ b', placePiece initialBoard Player.black 2 4 = some b' ∧
      (getNumPieces b').1 + (getNumPieces b').2 =
        (getNumPieces initialBoard).1 + (getNumPieces initialBoard).2 + 1 ∧
      (Player.black = Player.black →
        (getNumPieces initialBoard).1 + 2 ≤ (getNumPieces b').1 ∧
        (getNumPieces b').2 + 1 ≤ (getNumPieces initialBoard).2) ∧
      (Player.black = Player.white →
        (getNumPieces initialBoard).2 + 2 ≤ (getNumPieces b').2 ∧
        (getNumPieces b').1 + 1 ≤ (getNumPieces initialBoard).1) ∧
      (∀ u v : ℤ, cellD initialBoard u v ≠ Piece.noPiece →
        cellD b' u v ≠ Piece.noPiece)) :=
  ⟨by decide, by decide,
    @place_piece_counts initialBoard Player.black 2 4 (by decide) (by decide)⟩

/-! ### Basic search facts -/

theorem bot_lt_fin (n : ℤ) : (⊥ : XInt) < XInt.fin n := WithBot.bot_lt_coe _

theorem fin_lt_top (n : ℤ) : XInt.fin n < (⊤ : XInt) := by
  unfold XInt.fin
  exact WithBot.coe_lt_coe.mpr (WithTop.coe_lt_top n)

/-- Any finite score strictly beats the initial `±inf` sentinel. -/
theorem better_fin_sentinel (p : Player) (n : ℤ) :
    better p (XInt.fin n) (sentinel p) := by
  cases p
  · exact bot_lt_fin n
  · exact fin_lt_top n

/-- The loop body of `_minimax`, unrolled one iteration. -/
theorem abGo_cons
    (rec : Board → Player → XInt → XInt → XInt × Option (ℤ × ℤ))
    (b : Board) (p : Player) (mv : ℤ × ℤ) (rest : List (ℤ × ℤ))
    (a be best : XInt) (bm : Option (ℤ × ℤ)) :
    abGo rec b p (mv :: rest) a be best bm =
      if (if p = Player.white
            then min be (rec (childBoard b p mv) p.opponent a be).1 else be) ≤
          (if p = Player.black
            then max a (rec (childBoard b p mv) p.opponent a be).1 else a) then
        (if better p (rec (childBoard b p mv) p.opponent a be).1 best
          then (rec (childBoard b p mv) p.opponent a be).1 else best,
         if better p (rec (childBoard b p mv) p.opponent a be).1 best
          then some mv else bm)
      else abGo rec b p rest
        (if p = Player.black
          then max a (rec (childBoard b p mv) p.opponent a be).1 else a)
        (if p = Player.white
          then min be (rec (childBoard b p mv) p.opponent a be).1 else be)
        (if better p (rec (childBoard b p mv) p.opponent a be).1 best
          then (rec (childBoard b p mv) p.opponent a be).1 else best)
        (if better p (rec (childBoard b p mv) p.opponent a be).1 best
          then some mv else bm) := rfl

/-- The recursive case of `_minimax`, unrolled. -/
theorem minimaxAB_succ (ev : Board → ℤ) (d : ℕ) (b : Board) (p : Player)
    (a be : XInt) :
    minimaxAB ev (d + 1) b p a be =
      if (getLegalMovesForPlayer b p).isEmpty = true
        then (XInt.fin (ev b), none)
        else abGo (minimaxAB ev d) b p (getLegalMovesForPlayer b p) a be
          (sentinel p) none := rfl

/-- The loop's best score stays a finite evaluator value: the first
child always replaces the sentinel, later children only replace finite
values by finite values. -/
theorem abGo_fin {rec : Board → Player → XInt → XInt → XInt × Option (ℤ × ℤ)}
    (hrec : ∀ b' p' a' be', ∃ n : ℤ, (rec b' p' a' be').1 = XInt.fin n)
    (b : Board) (p : Player) :
    ∀ (moves : List (ℤ × ℤ)) (a be best : XInt) (bm : Option (ℤ × ℤ)),
      ((∃ n : ℤ, best = XInt.fin n) ∨ (moves ≠ [] ∧ best = sentinel p)) →
      ∃ n : ℤ, (abGo rec b p moves a be best bm).1 = XInt.fin n := by
  intro moves
  induction moves with
  | nil =>
    intro a be best bm h
    rcases h with ⟨n, hn⟩ | ⟨hne, _⟩
    · exact ⟨n, hn⟩
    · exact absurd rfl hne
  | cons mv rest ih =>
    intro a be best bm h
    obtain ⟨m, hm⟩ := hrec (childBoard b p mv) p.opponent a be
    rw [abGo_cons, hm]
    have hfin' : ∃ n : ℤ,
        (if better p (XInt.fin m) best then XInt.fin m else best) =
          XInt.fin n := by
      by_cases hbet : better p (XInt.fin m) best
      · rw [if_pos hbet]
        exact ⟨m, rfl⟩
      · rw [if_neg hbet]
        rcases h with ⟨n, hn⟩ | ⟨_, hsent⟩
        · exact ⟨n, hn⟩
        · exfalso
          apply hbet
          rw [hsent]
          exact better_fin_sentinel p m
    by_cases hcut : (if p = Player.white then min be (XInt.fin m) else be) ≤
        (if p = Player.black then max a (XInt.fin m) else a)
    · rw [if_pos hcut]
      exact hfin'
    · rw [if_neg hcut]
      exact ih _ _ _ _ (Or.inl hfin')

/-- `_minimax` always returns a finite score. -/
theorem minimaxAB_fin (ev : Board → ℤ) :
    ∀ (d : ℕ) (b : Board) (p : Player) (a be : XInt),
      ∃ n : ℤ, (minimaxAB ev d b p a be).1 = XInt.fin n := by
  intro d
  induction d with
  | zero => exact fun b p a be => ⟨ev b, rfl⟩
  | succ d ih =>
    intro b p a be
    rw [minimaxAB_succ]
    by_cases hemp : (getLegalMovesForPlayer b p).isEmpty = true
    · rw [if_pos hemp]
      exact ⟨ev b, rfl⟩
    · rw [if_neg hemp]
      apply abGo_fin (fun b' p' a' be' => ih b' p' a' be') b p
      refine Or.inr ⟨?_, rfl⟩
      intro hnil
      rw [hnil] at hemp
      simp at hemp

/-- The loop returns either its incoming move or one of the enumerated
moves. -/
theorem abGo_move {rec : Board → Player → XInt → XInt → XInt × Option (ℤ × ℤ)}
    (b : Board) (p : Player) :
    ∀ (moves : List (ℤ × ℤ)) (a be best : XInt) (bm : Option (ℤ × ℤ)),
      (abGo rec b p moves a be best bm).2 = bm ∨
      ∃ mv ∈ moves, (abGo rec b p moves a be best bm).2 = some mv := by
  intro moves
  induction moves with
  | nil => exact fun a be best bm => Or.inl rfl
  | cons mv rest ih =>
    intro a be best bm
    rw [abGo_cons]
    by_cases hcut : (if p = Player.white
          then min be (rec (childBoard b p mv) p.opponent a be).1 else be) ≤
        (if p = Player.black
          then max a (rec (childBoard b p mv) p.opponent a be).1 else a)
    · rw [if_pos hcut]
      by_cases hbet : better p (rec (childBoard b p mv) p.opponent a be).1 best
      · rw [if_pos hbet, if_pos hbet]
        exact Or.inr ⟨mv, List.mem_cons.mpr (Or.inl rfl), rfl⟩
      · rw [if_neg hbet, if_neg hbet]
        exact Or.inl rfl
    · rw [if_neg hcut]
      by_cases hbet : better p (rec (childBoard b p mv) p.opponent a be).1 best
      · rw [if_pos hbet, if_pos hbet]
        rcases ih _ _ _ (some mv) with h | ⟨mv', hmv', h⟩
        · exact Or.inr ⟨mv, List.mem_cons.mpr (Or.inl rfl), h⟩
        · exact Or.inr ⟨mv', List.mem_cons.mpr (Or.inr hmv'), h⟩
      · rw [if_neg hbet, if_neg hbet]
        rcases ih _ _ _ bm with h | ⟨mv', hmv', h⟩
        · exact Or.inl h
        · exact Or.inr ⟨mv', List.mem_cons.mpr (Or.inr hmv'), h⟩

/-- Started from the sentinel with at least one legal move, the loop
returns one of the enumerated moves (never `None`). -/
theorem abGo_move_sentinel
    {rec : Board → Player → XInt → XInt → XInt × Option (ℤ × ℤ)}
    (hrec : ∀ b' p' a' be', ∃ n : ℤ, (rec b' p' a' be').1 = XInt.fin n)
    (b : Board) (p : Player) (moves : List (ℤ × ℤ)) (hne : moves ≠ [])
    (a be : XInt) :
    ∃ mv ∈ moves, (abGo rec b p moves a be (sentinel p) none).2 = some mv := by
  match moves, hne with
  | mv :: rest, _ =>
    obtain ⟨m, hm⟩ := hrec (childBoard b p mv) p.opponent a be
    have hbet : better p (rec (childBoard b p mv) p.opponent a be).1
        (sentinel p) := by
      rw [hm]
      exact better_fin_sentinel p m
    rw [abGo_cons, if_pos hbet, if_pos hbet]
    by_cases hcut : (if p = Player.white
          then min be (rec (childBoard b p mv) p.opponent a be).1 else be) ≤
        (if p = Player.black
          then max a (rec (childBoard b p mv) p.opponent a be).1 else a)
    · rw [if_pos hcut]
      exact ⟨mv, List.mem_cons.mpr (Or.inl rfl), rfl⟩
    · rw [if_neg hcut]
      rcases abGo_move b p rest _ _ _ (some mv) with h | ⟨mv', hmv', h⟩
      · exact ⟨mv, List.mem_cons.mpr (Or.inl rfl), h⟩
      · exact ⟨mv', List.mem_cons.mpr (Or.inr hmv'), h⟩

/-- C4.  For every evaluator, board, player, depth, alpha, and beta:
if `depth == 0` or the player has no legal moves, `_minimax` returns
`(evaluate(board), None)`; otherwise the returned move is one of the
player's legal moves — the first enumerated child always replaces the
`±inf` sentinel because its finite score satisfies the strict
comparison, and a `beta <= alpha` cutoff can only fire after at least
one child has been scored. -/
theorem minimax_base_and_move (ev : Board → ℤ) (d : ℕ) (b : Board)
    (p : Player) (a be : XInt) :
    ((d = 0 ∨ getLegalMovesForPlayer b p = []) →
      minimaxAB ev d b p a be = (XInt.fin (ev b), none)) ∧
    (d ≠ 0 → getLegalMovesForPlayer b p ≠ [] →
      ∃ mv ∈ getLegalMovesForPlayer b p,
        (minimaxAB ev d b p a be).2 = some mv) := by
  constructor
  · intro h
    match d, h with
    | 0, _ => rfl
    | d + 1, h =>
      have hnil : getLegalMovesForPlayer b p = [] := by
        rcases h with h | h
        · exact absurd h (by omega)
        · exact h
      rw [minimaxAB_succ, if_pos (by rw [hnil]; rfl)]
  · intro hd hne
    match d, hd with
    | d + 1, _ =>
      rw [minimaxAB_succ, if_neg (by simpa using hne)]
      exact abGo_move_sentinel
        (fun b' p' a' be' => minimaxAB_fin ev d b' p' a' be') b p _ hne a be

/-- Witness for C4 at concrete inputs: depth 0 returns the evaluation
with no move; depth 1 on the initial board returns a legal move. -/
theorem minimax_base_and_move_witness :
    minimaxAB coinScore 0 initialBoard Player.black ⊥ ⊤ =
      (XInt.fin (coinScore initialBoard), none) ∧
    ∃ mv ∈ getLegalMovesForPlayer initialBoard Player.black,
      (minimaxAB coinScore 1 initialBoard Player.black ⊥ ⊤).2 = some mv :=
  ⟨(minimax_base_and_move coinScore 0 initialBoard Player.black ⊥ ⊤).1
      (Or.inl rfl),
   (minimax_base_and_move coinScore 1 initialBoard Player.black ⊥ ⊤).2
      (by omega) (by decide)⟩

/-! ### Pruning equivalence: preliminaries -/

/-- The full-width loop, unrolled one iteration. -/
theorem fullGo_cons (rec : Board → Player → XInt × Option (ℤ × ℤ))
    (b : Board) (p : Player) (mv : ℤ × ℤ) (rest : List (ℤ × ℤ))
    (best : XInt) (bm : Option (ℤ × ℤ)) :
    fullGo rec b p (mv :: rest) best bm =
      if better p (rec (childBoard b p mv) p.opponent).1 best
        then fullGo rec b p rest (rec (childBoard b p mv) p.opponent).1 (some mv)
        else fullGo rec b p rest best bm := rfl

/-- The recursive case of the full-width search, unrolled. -/
theorem minimaxFull_succ (ev : Board → ℤ) (d : ℕ) (b : Board) (p : Player) :
    minimaxFull ev (d + 1) b p =
      if (getLegalMovesForPlayer b p).isEmpty = true
        then (XInt.fin (ev b), none)
        else fullGo (minimaxFull ev d) b p (getLegalMovesForPlayer b p)
          (sentinel p) none := rfl

theorem ite_lt_eq_max (x y : XInt) : (if x < y then y else x) = max x y := by
  by_cases h : x < y
  · rw [if_pos h, max_eq_right h.le]
  · rw [if_neg h, max_eq_left (not_lt.mp h)]

theorem ite_lt_eq_min (x y : XInt) : (if y < x then y else x) = min x y := by
  by_cases h : y < x
  · rw [if_pos h, min_eq_right h.le]
  · rw [if_neg h, min_eq_left (not_lt.mp h)]

/-- BLACK's full-width fold only raises the running best. -/
theorem fullGo_ge_black (rec : Board → Player → XInt × Option (ℤ × ℤ))
    (b : Board) :
    ∀ (moves : List (ℤ × ℤ)) (best : XInt) (bm : Option (ℤ × ℤ)),
      best ≤ (fullGo rec b Player.black moves best bm).1 := by
  intro moves
  induction moves with
  | nil => exact fun best bm => le_refl best
  | cons mv rest ih =>
    intro best bm
    rw [fullGo_cons]
    by_cases h : better Player.black (rec (childBoard b Player.black mv)
        Player.black.opponent).1 best
    · rw [if_pos h]
      have hlt : best < (rec (childBoard b Player.black mv)
          Player.black.opponent).1 := h
      exact le_trans hlt.le (ih _ _)
    · rw [if_neg h]
      exact ih _ _

/-- WHITE's full-width fold only lowers the running best. -/
theorem fullGo_le_white (rec : Board → Player → XInt × Option (ℤ × ℤ))
    (b : Board) :
    ∀ (moves : List (ℤ × ℤ)) (best : XInt) (bm : Option (ℤ × ℤ)),
      (fullGo rec b Player.white moves best bm).1 ≤ best := by
  intro moves
  induction moves with
  | nil => exact fun best bm => le_refl best
  | cons mv rest ih =>
    intro best bm
    rw [fullGo_cons]
    by_cases h : better Player.white (rec (childBoard b Player.white mv)
        Player.white.opponent).1 best
    · rw [if_pos h]
      have hlt : (rec (childBoard b Player.white mv)
          Player.white.opponent).1 < best := h
      exact le_trans (ih _ _) hlt.le
    · rw [if_neg h]
      exact ih _ _

/-- The full-width fold keeps finite bests finite (first child replaces
the sentinel). -/
theorem fullGo_fin {rec : Board → Player → XInt × Option (ℤ × ℤ)}
    (hrec : ∀ b' p', ∃ n : ℤ, (rec b' p').1 = XInt.fin n)
    (b : Board) (p : Player) :
    ∀ (moves : List (ℤ × ℤ)) (best : XInt) (bm : Option (ℤ × ℤ)),
      ((∃ n : ℤ, best = XInt.fin n) ∨ (moves ≠ [] ∧ best = sentinel p)) →
      ∃ n : ℤ, (fullGo rec b p moves best bm).1 = XInt.fin n := by
  intro moves
  induction moves with
  | nil =>
    intro best bm h
    rcases h with ⟨n, hn⟩ | ⟨hne, _⟩
    · exact ⟨n, hn⟩
    · exact absurd rfl hne
  | cons mv rest ih =>
    intro best bm h
    obtain ⟨m, hm⟩ := hrec (childBoard b p mv) p.opponent
    rw [fullGo_cons, hm]
    by_cases hbet : better p (XInt.fin m) best
    · rw [if_pos hbet]
      exact ih _ _ (Or.inl ⟨m, rfl⟩)
    · rw [if_neg hbet]
      rcases h with ⟨n, hn⟩ | ⟨_, hsent⟩
      · exact ih _ _ (Or.inl ⟨n, hn⟩)
      · exfalso
        apply hbet
        rw [hsent]
        exact better_fin_sentinel p m

/-- The full-width search always returns a finite score. -/
theorem minimaxFull_fin (ev : Board → ℤ) :
    ∀ (d : ℕ) (b : Board) (p : Player),
      ∃ n : ℤ, (minimaxFull ev d b p).1 = XInt.fin n := by
  intro d
  induction d with
  | zero => exact fun b p => ⟨ev b, rfl⟩
  | succ d ih =>
    intro b p
    rw [minimaxFull_succ]
    by_cases hemp : (getLegalMovesForPlayer b p).isEmpty = true
    · rw [if_pos hemp]
      exact ⟨ev b, rfl⟩
    · rw [if_neg hemp]
      apply fullGo_fin (fun b' p' => ih b' p') b p
      refine Or.inr ⟨?_, rfl⟩
      intro hnil
      rw [hnil] at hemp
      simp at hemp

/-- `abGo` at a BLACK node: raise `alpha`, keep `beta`, strict `>`. -/
theorem abGo_cons_black
    (rec : Board → Player → XInt → XInt → XInt × Option (ℤ × ℤ))
    (b : Board) (mv : ℤ × ℤ) (rest : List (ℤ × ℤ))
    (a be best : XInt) (bm : Option (ℤ × ℤ)) :
    abGo rec b Player.black (mv :: rest) a be best bm =
      if be ≤ max a (rec (childBoard b Player.black mv) Player.white a be).1 then
        (if best < (rec (childBoard b Player.black mv) Player.white a be).1
          then (rec (childBoard b Player.black mv) Player.white a be).1 else best,
         if best < (rec (childBoard b Player.black mv) Player.white a be).1
          then some mv else bm)
      else abGo rec b Player.black rest
        (max a (rec (childBoard b Player.black mv) Player.white a be).1) be
        (if best < (rec (childBoard b Player.black mv) Player.white a be).1
          then (rec (childBoard b Player.black mv) Player.white a be).1 else best)
        (if best < (rec (childBoard b Player.black mv) Player.white a be).1
          then some mv else bm) := rfl

/-- `abGo` at a WHITE node: keep `alpha`, lower `beta`, strict `<`. -/
theorem abGo_cons_white
    (rec : Board → Player → XInt → XInt → XInt × Option (ℤ × ℤ))
    (b : Board) (mv : ℤ × ℤ) (rest : List (ℤ × ℤ))
    (a be best : XInt) (bm : Option (ℤ × ℤ)) :
    abGo rec b Player.white (mv :: rest) a be best bm =
      if min be (rec (childBoard b Player.white mv) Player.black a be).1 ≤ a then
        (if (rec (childBoard b Player.white mv) Player.black a be).1 < best
          then (rec (childBoard b Player.white mv) Player.black a be).1 else best,
         if (rec (childBoard b Player.white mv) Player.black a be).1 < best
          then some mv else bm)
      else abGo rec b Player.white rest
        a (min be (rec (childBoard b Player.white mv) Player.black a be).1)
        (if (rec (childBoard b Player.white mv) Player.black a be).1 < best
          then (rec (childBoard b Player.white mv) Player.black a be).1 else best)
        (if (rec (childBoard b Player.white mv) Player.black a be).1 < best
          then some mv else bm) := rfl

theorem fullGo_cons_black (rec : Board → Player → XInt × Option (ℤ × ℤ))
    (b : Board) (mv : ℤ × ℤ) (rest : List (ℤ × ℤ))
    (best : XInt) (bm : Option (ℤ × ℤ)) :
    fullGo rec b Player.black (mv :: rest) best bm =
      if best < (rec (childBoard b Player.black mv) Player.white).1
        then fullGo rec b Player.black rest
          (rec (childBoard b Player.black mv) Player.white).1 (some mv)
        else fullGo rec b Player.black rest best bm := rfl

theorem fullGo_cons_white (rec : Board → Player → XInt × Option (ℤ × ℤ))
    (b : Board) (mv : ℤ × ℤ) (rest : List (ℤ × ℤ))
    (best : XInt) (bm : Option (ℤ × ℤ)) :
    fullGo rec b Player.white (mv :: rest) best bm =
      if (rec (childBoard b Player.white mv) Player.black).1 < best
        then fullGo rec b Player.white rest
          (rec (childBoard b Player.white mv) Player.black).1 (some mv)
        else fullGo rec b Player.white rest best bm := rfl

/-- Fail-soft invariant of the BLACK loop: given that the one-ply-deeper
search satisfies the fail-soft window bounds against its full-width
value, the pruned loop stays within `[full, max alpha0 full]`, exceeds
`beta` whenever it cuts off early, and returns exactly the full-width
pair (score and move) whenever the node's true value lies strictly
inside the original window. -/
theorem abGo_full_black
    {rec : Board → Player → XInt → XInt → XInt × Option (ℤ × ℤ)}
    {recF : Board → Player → XInt × Option (ℤ × ℤ)}
    (b : Board)
    (hrc : ∀ (b' : Board) (a' be' : XInt), a' < be' →
      ((a' < (recF b' Player.white).1 → (recF b' Player.white).1 < be' →
          rec b' Player.white a' be' = recF b' Player.white) ∧
        ((recF b' Player.white).1 ≤ a' →
          (recF b' Player.white).1 ≤ (rec b' Player.white a' be').1 ∧
          (rec b' Player.white a' be').1 ≤ a') ∧
        (be' ≤ (recF b' Player.white).1 →
          be' ≤ (rec b' Player.white a' be').1 ∧
          (rec b' Player.white a' be').1 ≤ (recF b' Player.white).1)))
    (a0 be : XInt) :
    ∀ (moves : List (ℤ × ℤ)) (bA bF : XInt) (mA mF : Option (ℤ × ℤ)),
      max a0 bA < be →
      bF ≤ bA →
      bA ≤ max a0 bF →
      (a0 < bF → bA = bF ∧ mA = mF) →
      (abGo rec b Player.black moves (max a0 bA) be bA mA).1 ≤
          max a0 (fullGo recF b Player.black moves bF mF).1 ∧
      ((fullGo recF b Player.black moves bF mF).1 ≤
          (abGo rec b Player.black moves (max a0 bA) be bA mA).1 ∨
        be ≤ (abGo rec b Player.black moves (max a0 bA) be bA mA).1) ∧
      (a0 < (fullGo recF b Player.black moves bF mF).1 →
        (fullGo recF b Player.black moves bF mF).1 < be →
        abGo rec b Player.black moves (max a0 bA) be bA mA =
          fullGo recF b Player.black moves bF mF) := by
  intro moves
  induction moves with
  | nil =>
    intro bA bF mA mF H0 H1 H2 H3
    refine ⟨H2, Or.inl H1, ?_⟩
    intro ha hb
    exact Prod.ext (H3 ha).1 (H3 ha).2
  | cons mv rest ih =>
    intro bA bF mA mF H0 H1 H2 H3
    have ha0be : a0 < be := lt_of_le_of_lt (le_max_left a0 bA) H0
    have child := hrc (childBoard b Player.black mv) (max a0 bA) be H0
    rw [abGo_cons_black, fullGo_cons_black]
    set t := (recF (childBoard b Player.black mv) Player.white).1 with ht
    set cur := (rec (childBoard b Player.black mv) Player.white
      (max a0 bA) be).1 with hcur
    have hfg : (if bF < t then fullGo recF b Player.black rest t (some mv)
        else fullGo recF b Player.black rest bF mF) =
        fullGo recF b Player.black rest (if bF < t then t else bF)
          (if bF < t then some mv else mF) := by
      by_cases h : bF < t
      · rw [if_pos h, if_pos h, if_pos h]
      · rw [if_neg h, if_neg h, if_neg h]
    rw [hfg]
    have hcur_le : cur ≤ max (max a0 bA) t := by
      rcases le_or_lt t (max a0 bA) with hta | hta
      · exact le_trans (child.2.1 hta).2 (le_max_left _ _)
      · rcases lt_or_le t be with htb | htb
        · rw [show cur = t from congrArg Prod.fst (child.1 hta htb)]
          exact le_max_right _ _
        · exact le_trans (child.2.2 htb).2 (le_max_right _ _)
    have hcur_ge : t ≤ cur ∨ be ≤ cur := by
      rcases le_or_lt t (max a0 bA) with hta | hta
      · exact Or.inl (child.2.1 hta).1
      · rcases lt_or_le t be with htb | htb
        · rw [show cur = t from congrArg Prod.fst (child.1 hta htb)]
          exact Or.inl (le_refl t)
        · exact Or.inr (child.2.2 htb).1
    have hmaxbF : max a0 bA ≤ max a0 bF :=
      max_le (le_max_left a0 bF) H2
    by_cases hcut : be ≤ max (max a0 bA) cur
    · rw [if_pos hcut]
      dsimp only
      have hbecur : be ≤ cur := by
        rcases le_max_iff.mp hcut with h | h
        · exact absurd h (not_le.mpr H0)
        · exact h
      have hbA' : be ≤ (if bA < cur then cur else bA) := by
        rw [ite_lt_eq_max]
        exact le_trans hbecur (le_max_right bA cur)
      have hs_ge : bF ≤ (fullGo recF b Player.black rest
          (if bF < t then t else bF) (if bF < t then some mv else mF)).1 := by
        refine le_trans ?_ (fullGo_ge_black recF b rest _ _)
        rw [ite_lt_eq_max]
        exact le_max_left bF t
      have ht_le_s : t ≤ (fullGo recF b Player.black rest
          (if bF < t then t else bF) (if bF < t then some mv else mF)).1 := by
        refine le_trans ?_ (fullGo_ge_black recF b rest _ _)
        rw [ite_lt_eq_max]
        exact le_max_right bF t
      have hconj1 : (if bA < cur then cur else bA) ≤
          max a0 (fullGo recF b Player.black rest
            (if bF < t then t else bF) (if bF < t then some mv else mF)).1 := by
        rw [ite_lt_eq_max]
        apply max_le
        · exact le_trans H2 (max_le_max (le_refl a0) hs_ge)
        · refine le_trans hcur_le (max_le ?_ ?_)
          · exact le_trans hmaxbF (max_le_max (le_refl a0) hs_ge)
          · exact le_trans ht_le_s (le_max_right a0 _)
      refine ⟨hconj1, Or.inr hbA', ?_⟩
      intro hlo hhi
      exfalso
      have hbes : be ≤ max a0 (fullGo recF b Player.black rest
          (if bF < t then t else bF) (if bF < t then some mv else mF)).1 :=
        le_trans hbA' hconj1
      rcases le_max_iff.mp hbes with h | h
      · exact absurd h (not_le.mpr ha0be)
      · exact absurd h (not_le.mpr hhi)
    · rw [if_neg hcut]
      have hncut : max (max a0 bA) cur < be := not_le.mp hcut
      have htbe : t < be := by
        by_contra h
        have h2 := (child.2.2 (not_lt.mp h)).1
        exact hcut (le_trans h2 (le_max_right _ _))
      have htcur : t ≤ cur := by
        rcases hcur_ge with h | h
        · exact h
        · exact absurd (le_trans h (le_max_right (max a0 bA) cur)) hcut
      have hH1' : (if bF < t then t else bF) ≤ (if bA < cur then cur else bA) := by
        rw [ite_lt_eq_max, ite_lt_eq_max]
        exact max_le_max H1 htcur
      have hH2' : (if bA < cur then cur else bA) ≤
          max a0 (if bF < t then t else bF) := by
        rw [ite_lt_eq_max, ite_lt_eq_max]
        apply max_le
        · exact le_trans H2 (max_le_max (le_refl a0) (le_max_left bF t))
        · refine le_trans hcur_le (max_le ?_ ?_)
          · exact le_trans hmaxbF
              (max_le_max (le_refl a0) (le_max_left bF t))
          · exact le_trans (le_max_right bF t) (le_max_right a0 _)
      have hH3' : a0 < (if bF < t then t else bF) →
          (if bA < cur then cur else bA) = (if bF < t then t else bF) ∧
          (if bA < cur then some mv else mA) =
            (if bF < t then some mv else mF) := by
        intro ha0bF'
        by_cases htf : bF < t
        · rw [if_pos htf] at ha0bF' ⊢
          have hbAt : bA < t :=
            lt_of_le_of_lt H2 (max_lt ha0bF' htf)
          have hat : max a0 bA < t := max_lt ha0bF' hbAt
          have hcurt : cur = t := congrArg Prod.fst (child.1 hat htbe)
          rw [if_pos htf]
          rw [hcurt]
          rw [if_pos hbAt, if_pos hbAt]
          exact ⟨rfl, rfl⟩
        · rw [if_neg htf] at ha0bF' ⊢
          obtain ⟨hbAbF, hmAmF⟩ := H3 ha0bF'
          have htbF : t ≤ bF := not_lt.mp htf
          have hsub : max a0 bA = bA := by
            rw [hbAbF]
            exact max_eq_right ha0bF'.le
          have hcurbA : cur ≤ bA := by
            have := (child.2.1 (by rw [hsub, hbAbF]; exact htbF)).2
            rw [hsub] at this
            exact this
          rw [if_neg htf, if_neg (not_lt.mpr hcurbA),
            if_neg (not_lt.mpr hcurbA)]
          exact ⟨hbAbF, hmAmF⟩
      have hwin : max a0 (if bA < cur then cur else bA) =
          max (max a0 bA) cur := by
        rw [ite_lt_eq_max, max_assoc]
      have IH := ih (if bA < cur then cur else bA) (if bF < t then t else bF)
        (if bA < cur then some mv else mA) (if bF < t then some mv else mF)
        (by rw [hwin]; exact hncut) hH1' hH2' hH3'
      rw [hwin] at IH
      exact IH

/-- Fail-soft invariant of the WHITE loop, the order-dual of
`abGo_full_black`. -/
theorem abGo_full_white
    {rec : Board → Player → XInt → XInt → XInt × Option (ℤ × ℤ)}
    {recF : Board → Player → XInt × Option (ℤ × ℤ)}
    (b : Board)
    (hrc : ∀ (b' : Board) (a' be' : XInt), a' < be' →
      ((a' < (recF b' Player.black).1 → (recF b' Player.black).1 < be' →
          rec b' Player.black a' be' = recF b' Player.black) ∧
        ((recF b' Player.black).1 ≤ a' →
          (recF b' Player.black).1 ≤ (rec b' Player.black a' be').1 ∧
          (rec b' Player.black a' be').1 ≤ a') ∧
        (be' ≤ (recF b' Player.black).1 →
          be' ≤ (rec b' Player.black a' be').1 ∧
          (rec b' Player.black a' be').1 ≤ (recF b' Player.black).1)))
    (a be0 : XInt) :
    ∀ (moves : List (ℤ × ℤ)) (bA bF : XInt) (mA mF : Option (ℤ × ℤ)),
      a < min be0 bA →
      bA ≤ bF →
      min be0 bF ≤ bA →
      (bF < be0 → bA = bF ∧ mA = mF) →
      min be0 (fullGo recF b Player.white moves bF mF).1 ≤
          (abGo rec b Player.white moves a (min be0 bA) bA mA).1 ∧
      ((abGo rec b Player.white moves a (min be0 bA) bA mA).1 ≤
          (fullGo recF b Player.white moves bF mF).1 ∨
        (abGo rec b Player.white moves a (min be0 bA) bA mA).1 ≤ a) ∧
      (a < (fullGo recF b Player.white moves bF mF).1 →
        (fullGo recF b Player.white moves bF mF).1 < be0 →
        abGo rec b Player.white moves a (min be0 bA) bA mA =
          fullGo recF b Player.white moves bF mF) := by
  intro moves
  induction moves with
  | nil =>
    intro bA bF mA mF H0 H1 H2 H3
    refine ⟨H2, Or.inl H1, ?_⟩
    intro ha hb
    exact Prod.ext (H3 hb).1 (H3 hb).2
  | cons mv rest ih =>
    intro bA bF mA mF H0 H1 H2 H3
    have habe0 : a < be0 := lt_of_lt_of_le H0 (min_le_left be0 bA)
    have child := hrc (childBoard b Player.white mv) a (min be0 bA) H0
    rw [abGo_cons_white, fullGo_cons_white]
    set t := (recF (childBoard b Player.white mv) Player.black).1 with ht
    set cur := (rec (childBoard b Player.white mv) Player.black
      a (min be0 bA)).1 with hcur
    have hfg : (if t < bF then fullGo recF b Player.white rest t (some mv)
        else fullGo recF b Player.white rest bF mF) =
        fullGo recF b Player.white rest (if t < bF then t else bF)
          (if t < bF then some mv else mF) := by
      by_cases h : t < bF
      · rw [if_pos h, if_pos h, if_pos h]
      · rw [if_neg h, if_neg h, if_neg h]
    rw [hfg]
    have hcur_ge : min (min be0 bA) t ≤ cur := by
      rcases le_or_lt (min be0 bA) t with hta | hta
      · exact le_trans (min_le_left _ _) (child.2.2 hta).1
      · rcases lt_or_le a t with htb | htb
        · rw [show cur = t from congrArg Prod.fst (child.1 htb hta)]
          exact min_le_right _ _
        · exact le_trans (min_le_right _ _) (child.2.1 htb).1
    have hcur_le : cur ≤ t ∨ cur ≤ a := by
      rcases le_or_lt (min be0 bA) t with hta | hta
      · exact Or.inl (child.2.2 hta).2
      · rcases lt_or_le a t with htb | htb
        · rw [show cur = t from congrArg Prod.fst (child.1 htb hta)]
          exact Or.inl (le_refl t)
        · exact Or.inr (child.2.1 htb).2
    have hminbF : min be0 bF ≤ min be0 bA :=
      le_min (min_le_left be0 bF) H2
    by_cases hcut : min (min be0 bA) cur ≤ a
    · rw [if_pos hcut]
      dsimp only
      have hacur : cur ≤ a := by
        rcases min_le_iff.mp hcut with h | h
        · exact absurd h (not_le.mpr H0)
        · exact h
      have hbA' : (if cur < bA then cur else bA) ≤ a := by
        rw [ite_lt_eq_min]
        exact le_trans (min_le_right bA cur) hacur
      have hs_le : (fullGo recF b Player.white rest
          (if t < bF then t else bF) (if t < bF then some mv else mF)).1 ≤
          bF := by
        refine le_trans (fullGo_le_white recF b rest _ _) ?_
        rw [ite_lt_eq_min]
        exact min_le_left bF t
      have hs_le_t : (fullGo recF b Player.white rest
          (if t < bF then t else bF) (if t < bF then some mv else mF)).1 ≤
          t := by
        refine le_trans (fullGo_le_white recF b rest _ _) ?_
        rw [ite_lt_eq_min]
        exact min_le_right bF t
      have hconj1 : min be0 (fullGo recF b Player.white rest
            (if t < bF then t else bF) (if t < bF then some mv else mF)).1 ≤
          (if cur < bA then cur else bA) := by
        rw [ite_lt_eq_min bA cur]
        apply le_min
        · exact le_trans (min_le_min (le_refl be0) hs_le) H2
        · refine le_trans (le_min (le_min (min_le_left _ _)
            (le_trans (min_le_min (le_refl be0) hs_le) H2))
            (le_trans (min_le_right _ _) hs_le_t)) hcur_ge
      refine ⟨hconj1, Or.inr hbA', ?_⟩
      intro hlo hhi
      exfalso
      have hbes : min be0 (fullGo recF b Player.white rest
          (if t < bF then t else bF) (if t < bF then some mv else mF)).1 ≤ a :=
        le_trans hconj1 hbA'
      rcases min_le_iff.mp hbes with h | h
      · exact absurd h (not_le.mpr habe0)
      · exact absurd h (not_le.mpr hlo)
    · rw [if_neg hcut]
      have hncut : a < min (min be0 bA) cur := not_le.mp hcut
      have hta : a < t := by
        by_contra h
        have h2 := (child.2.1 (not_lt.mp h)).2
        exact hcut (le_trans (min_le_right _ _) h2)
      have htcur : cur ≤ t := by
        rcases hcur_le with h | h
        · exact h
        · exact absurd (le_trans (min_le_right (min be0 bA) cur) h) hcut
      have hH1' : (if cur < bA then cur else bA) ≤ (if t < bF then t else bF) := by
        rw [ite_lt_eq_min, ite_lt_eq_min]
        exact min_le_min H1 htcur
      have hH2' : min be0 (if t < bF then t else bF) ≤
          (if cur < bA then cur else bA) := by
        rw [ite_lt_eq_min, ite_lt_eq_min]
        apply le_min
        · exact le_trans (min_le_min (le_refl be0) (min_le_left bF t)) H2
        · refine le_trans (le_min (le_min (min_le_left _ _)
            (le_trans (min_le_min (le_refl be0) (min_le_left bF t)) H2))
            (le_trans (min_le_right _ _) (min_le_right bF t))) hcur_ge
      have hH3' : (if t < bF then t else bF) < be0 →
          (if cur < bA then cur else bA) = (if t < bF then t else bF) ∧
          (if cur < bA then some mv else mA) =
            (if t < bF then some mv else mF) := by
        intro hbF'be
        by_cases htf : t < bF
        · rw [if_pos htf] at hbF'be ⊢
          have hbAt : t < bA :=
            lt_of_lt_of_le (lt_min hbF'be htf) H2
          have hbt : t < min be0 bA := lt_min hbF'be hbAt
          have hcurt : cur = t := congrArg Prod.fst (child.1 hta hbt)
          rw [if_pos htf]
          rw [hcurt]
          rw [if_pos hbAt, if_pos hbAt]
          exact ⟨rfl, rfl⟩
        · rw [if_neg htf] at hbF'be ⊢
          obtain ⟨hbAbF, hmAmF⟩ := H3 hbF'be
          have htbF : bF ≤ t := not_lt.mp htf
          have hsub : min be0 bA = bA := by
            rw [hbAbF]
            exact min_eq_right hbF'be.le
          have hcurbA : bA ≤ cur := by
            have h2 := (child.2.2 (by rw [hsub, hbAbF]; exact htbF)).1
            rw [hsub] at h2
            exact h2
          rw [if_neg htf, if_neg (not_lt.mpr hcurbA),
            if_neg (not_lt.mpr hcurbA)]
          exact ⟨hbAbF, hmAmF⟩
      have hwin : min be0 (if cur < bA then cur else bA) =
          min (min be0 bA) cur := by
        rw [ite_lt_eq_min, min_assoc]
      have IH := ih (if cur < bA then cur else bA) (if t < bF then t else bF)
        (if cur < bA then some mv else mA) (if t < bF then some mv else mF)
        (by rw [hwin]; exact hncut) hH1' hH2' hH3'
      rw [hwin] at IH
      exact IH

/-- Fail-soft window bounds for `_minimax` against the full-width
search, by induction on depth: exact (score and move) strictly inside
the window, bounded by the window edge otherwise. -/
theorem minimaxAB_failsoft (ev : Board → ℤ) :
    ∀ (d : ℕ) (b : Board) (p : Player) (a be : XInt), a < be →
      (a < (minimaxFull ev d b p).1 → (minimaxFull ev d b p).1 < be →
        minimaxAB ev d b p a be = minimaxFull ev d b p) ∧
      ((minimaxFull ev d b p).1 ≤ a →
        (minimaxFull ev d b p).1 ≤ (minimaxAB ev d b p a be).1 ∧
        (minimaxAB ev d b p a be).1 ≤ a) ∧
      (be ≤ (minimaxFull ev d b p).1 →
        be ≤ (minimaxAB ev d b p a be).1 ∧
        (minimaxAB ev d b p a be).1 ≤ (minimaxFull ev d b p).1) := by
  intro d
  induction d with
  | zero =>
    intro b p a be hab
    exact ⟨fun _ _ => rfl, fun h => ⟨le_refl _, h⟩, fun h => ⟨h, le_refl _⟩⟩
  | succ d ih =>
    intro b p a be hab
    by_cases hemp : (getLegalMovesForPlayer b p).isEmpty = true
    · rw [minimaxAB_succ, minimaxFull_succ, if_pos hemp, if_pos hemp]
      exact ⟨fun _ _ => rfl, fun h => ⟨le_refl _, h⟩, fun h => ⟨h, le_refl _⟩⟩
    · rw [minimaxAB_succ, minimaxFull_succ, if_neg hemp, if_neg hemp]
      cases p with
      | black =>
        rw [show sentinel Player.black = (⊥ : XInt) from rfl]
        have L := abGo_full_black b
          (fun b' a' be' h' => ih b' Player.white a' be' h') a be
          (getLegalMovesForPlayer b Player.black) ⊥ ⊥ none none
          (by rw [max_eq_left bot_le]; exact hab) (le_refl ⊥) bot_le
          (fun h => absurd h (not_lt_bot))
        rw [max_eq_left bot_le] at L
        refine ⟨fun h1 h2 => L.2.2 h1 h2, ?_, ?_⟩
        · intro h
          have hr1 : (abGo (minimaxAB ev d) b Player.black
              (getLegalMovesForPlayer b Player.black) a be
              ⊥ none).1 ≤ a := by
            refine le_trans L.1 ?_
            rw [max_eq_left h]
          refine ⟨?_, hr1⟩
          rcases L.2.1 with h2 | h2
          · exact h2
          · exact absurd (lt_of_le_of_lt (le_trans h2 hr1) hab)
              (lt_irrefl be)
        · intro h
          have hr1 : (abGo (minimaxAB ev d) b Player.black
              (getLegalMovesForPlayer b Player.black) a be
              ⊥ none).1 ≤
              (fullGo (minimaxFull ev d) b Player.black
                (getLegalMovesForPlayer b Player.black)
                ⊥ none).1 := by
            refine le_trans L.1 ?_
            rw [max_eq_right (le_trans hab.le h)]
          refine ⟨?_, hr1⟩
          rcases L.2.1 with h2 | h2
          · exact le_trans h h2
          · exact h2
      | white =>
        rw [show sentinel Player.white = (⊤ : XInt) from rfl]
        have L := abGo_full_white b
          (fun b' a' be' h' => ih b' Player.black a' be' h') a be
          (getLegalMovesForPlayer b Player.white) ⊤ ⊤ none none
          (by rw [min_eq_left le_top]; exact hab) (le_refl ⊤) le_top
          (fun h => absurd h (not_top_lt))
        rw [min_eq_left le_top] at L
        refine ⟨fun h1 h2 => L.2.2 h1 h2, ?_, ?_⟩
        · intro h
          have hr1 : (fullGo (minimaxFull ev d) b Player.white
              (getLegalMovesForPlayer b Player.white)
              ⊤ none).1 ≤
              (abGo (minimaxAB ev d) b Player.white
                (getLegalMovesForPlayer b Player.white) a be
                ⊤ none).1 := by
            refine le_trans ?_ L.1
            rw [min_eq_right (le_trans h hab.le)]
          refine ⟨hr1, ?_⟩
          rcases L.2.1 with h2 | h2
          · exact le_trans h2 h
          · exact h2
        · intro h
          have hr1 : be ≤ (abGo (minimaxAB ev d) b Player.white
              (getLegalMovesForPlayer b Player.white) a be
              ⊤ none).1 := by
            refine le_trans ?_ L.1
            rw [min_eq_left h]
          refine ⟨hr1, ?_⟩
          rcases L.2.1 with h2 | h2
          · exact h2
          · exact absurd (lt_of_le_of_lt (le_trans hr1 h2) hab)
              (lt_irrefl be)

/-- With the full window, the pruned and full-width searches agree
exactly (the node value is finite, hence strictly inside `(-inf, inf)`) -/
theorem minimaxAB_eq_minimaxFull (ev : Board → ℤ) (d : ℕ) (b : Board)
    (p : Player) :
    minimaxAB ev d b p ⊥ ⊤ = minimaxFull ev d b p := by
  obtain ⟨n, hn⟩ := minimaxFull_fin ev d b p
  exact (minimaxAB_failsoft ev d b p ⊥ ⊤ bot_lt_top).1
    (by rw [hn]; exact bot_lt_fin n) (by rw [hn]; exact fin_lt_top n)

/-- C1.  For every board, player, depth, and evaluator, the
(score, move) pair returned by the alpha-beta search (`_minimax` seeded
with `alpha = -inf`, `beta = +inf`) equals the (score, move) pair
returned by an unpruned full-width minimax over the same game tree with
the same evaluator, depth, and first-move tie-break. -/
theorem pruning_equivalence (ev : Board → ℤ) (d : ℕ) (b : Board)
    (p : Player) :
    minimaxAB ev d b p ⊥ ⊤ = minimaxFull ev d b p :=
  minimaxAB_eq_minimaxFull ev d b p

/-! ### First-move tie-break -/

/-- If no child strictly improves on the running best, the fold returns
its incoming state: tied scores never overwrite the recorded move. -/
theorem fullGo_no_update (recF : Board → Player → XInt × Option (ℤ × ℤ))
    (b : Board) (p : Player) :
    ∀ (moves : List (ℤ × ℤ)) (best : XInt) (bm : Option (ℤ × ℤ)),
      (∀ mv ∈ moves, ¬ better p (recF (childBoard b p mv) p.opponent).1 best) →
      fullGo recF b p moves best bm = (best, bm) := by
  intro moves
  induction moves with
  | nil => exact fun best bm _ => rfl
  | cons mv rest ih =>
    intro best bm h
    rw [fullGo_cons, if_neg (h mv (List.mem_cons.mpr (Or.inl rfl)))]
    exact ih best bm fun mv' hmv' => h mv' (List.mem_cons.mpr (Or.inr hmv'))

/-- At a BLACK node, the fold's result is at least every child score. -/
theorem fullGo_ge_mem_black (recF : Board → Player → XInt × Option (ℤ × ℤ))
    (b : Board) :
    ∀ (moves : List (ℤ × ℤ)) (best : XInt) (bm : Option (ℤ × ℤ)),
      ∀ mv ∈ moves, (recF (childBoard b Player.black mv) Player.white).1 ≤
        (fullGo recF b Player.black moves best bm).1 := by
  intro moves
  induction moves with
  | nil => intro best bm mv hmv; cases hmv
  | cons mv0 rest ih =>
    intro best bm mv hmv
    rw [fullGo_cons_black]
    rcases List.mem_cons.mp hmv with hh | hh
    · subst hh
      by_cases hbet : best < (recF (childBoard b Player.black mv)
          Player.white).1
      · rw [if_pos hbet]
        exact le_trans (le_refl _) (fullGo_ge_black recF b rest _ _)
      · rw [if_neg hbet]
        exact le_trans (not_lt.mp hbet) (fullGo_ge_black recF b rest _ _)
    · by_cases hbet : best < (recF (childBoard b Player.black mv0)
          Player.white).1
      · rw [if_pos hbet]
        exact ih _ _ mv hh
      · rw [if_neg hbet]
        exact ih _ _ mv hh

/-- At a WHITE node, the fold's result is at most every child score. -/
theorem fullGo_le_mem_white (recF : Board → Player → XInt × Option (ℤ × ℤ))
    (b : Board) :
    ∀ (moves : List (ℤ × ℤ)) (best : XInt) (bm : Option (ℤ × ℤ)),
      ∀ mv ∈ moves, (fullGo recF b Player.white moves best bm).1 ≤
        (recF (childBoard b Player.white mv) Player.black).1 := by
  intro moves
  induction moves with
  | nil => intro best bm mv hmv; cases hmv
  | cons mv0 rest ih =>
    intro best bm mv hmv
    rw [fullGo_cons_white]
    rcases List.mem_cons.mp hmv with hh | hh
    · subst hh
      by_cases hbet : (recF (childBoard b Player.white mv)
          Player.black).1 < best
      · rw [if_pos hbet]
        exact fullGo_le_white recF b rest _ _
      · rw [if_neg hbet]
        exact le_trans (fullGo_le_white recF b rest _ _) (not_lt.mp hbet)
    · by_cases hbet : (recF (childBoard b Player.white mv0)
          Player.black).1 < best
      · rw [if_pos hbet]
        exact ih _ _ mv hh
      · rw [if_neg hbet]
        exact ih _ _ mv hh

/-- At a BLACK node with at least one strictly improving child, the
returned move is the first enumerated child attaining the returned
score. -/
theorem fullGo_find_black (recF : Board → Player → XInt × Option (ℤ × ℤ))
    (b : Board) :
    ∀ (moves : List (ℤ × ℤ)) (best : XInt) (bm : Option (ℤ × ℤ)),
      (∃ mv ∈ moves, best < (recF (childBoard b Player.black mv)
        Player.white).1) →
      (fullGo recF b Player.black moves best bm).2 =
        moves.find? fun mv =>
          decide ((recF (childBoard b Player.black mv) Player.white).1 =
            (fullGo recF b Player.black moves best bm).1) := by
  intro moves
  induction moves with
  | nil =>
    rintro best bm ⟨mv, hmv, _⟩
    cases hmv
  | cons mv0 rest ih =>
    rintro best bm ⟨mvw, hmvw, hw⟩
    by_cases hbet : best < (recF (childBoard b Player.black mv0)
        Player.white).1
    · rw [fullGo_cons_black, if_pos hbet]
      by_cases hrest : ∃ mv ∈ rest,
          (recF (childBoard b Player.black mv0) Player.white).1 <
            (recF (childBoard b Player.black mv) Player.white).1
      · obtain ⟨mv1, hmv1, h1⟩ := hrest
        have hne0 : (recF (childBoard b Player.black mv0) Player.white).1 ≠
            (fullGo recF b Player.black rest
              (recF (childBoard b Player.black mv0) Player.white).1
              (some mv0)).1 :=
          ne_of_lt (lt_of_lt_of_le h1
            (fullGo_ge_mem_black recF b rest _ _ mv1 hmv1))
        rw [List.find?_cons_of_neg _ (by simpa using hne0)]
        exact ih _ (some mv0) ⟨mv1, hmv1, h1⟩
      · have hstop : ∀ mv ∈ rest, ¬ better Player.black
            (recF (childBoard b Player.black mv) Player.white).1
            (recF (childBoard b Player.black mv0) Player.white).1 := by
          intro mv hmv hb
          exact hrest ⟨mv, hmv, hb⟩
        rw [fullGo_no_update recF b Player.black rest _ (some mv0) hstop]
        rw [List.find?_cons_of_pos _ (by simp)]
    · rw [fullGo_cons_black, if_neg hbet]
      have hmvw' : mvw ∈ rest := by
        rcases List.mem_cons.mp hmvw with hh | hh
        · subst hh
          exact absurd hw hbet
        · exact hh
      have hne0 : (recF (childBoard b Player.black mv0) Player.white).1 ≠
          (fullGo recF b Player.black rest best bm).1 :=
        ne_of_lt (lt_of_le_of_lt (not_lt.mp hbet) (lt_of_lt_of_le hw
          (fullGo_ge_mem_black recF b rest best bm mvw hmvw')))
      rw [List.find?_cons_of_neg _ (by simpa using hne0)]
      exact ih best bm ⟨mvw, hmvw', hw⟩

/-- At a WHITE node with at least one strictly improving child, the
returned move is the first enumerated child attaining the returned
score. -/
theorem fullGo_find_white (recF : Board → Player → XInt × Option (ℤ × ℤ))
    (b : Board) :
    ∀ (moves : List (ℤ × ℤ)) (best : XInt) (bm : Option (ℤ × ℤ)),
      (∃ mv ∈ moves, (recF (childBoard b Player.white mv)
        Player.black).1 < best) →
      (fullGo recF b Player.white moves best bm).2 =
        moves.find? fun mv =>
          decide ((recF (childBoard b Player.white mv) Player.black).1 =
            (fullGo recF b Player.white moves best bm).1) := by
  intro moves
  induction moves with
  | nil =>
    rintro best bm ⟨mv, hmv, _⟩
    cases hmv
  | cons mv0 rest ih =>
    rintro best bm ⟨mvw, hmvw, hw⟩
    by_cases hbet : (recF (childBoard b Player.white mv0)
        Player.black).1 < best
    · rw [fullGo_cons_white, if_pos hbet]
      by_cases hrest : ∃ mv ∈ rest,
          (recF (childBoard b Player.white mv) Player.black).1 <
            (recF (childBoard b Player.white mv0) Player.black).1
      · obtain ⟨mv1, hmv1, h1⟩ := hrest
        have hne0 : (recF (childBoard b Player.white mv0) Player.black).1 ≠
            (fullGo recF b Player.white rest
              (recF (childBoard b Player.white mv0) Player.black).1
              (some mv0)).1 :=
          ne_of_gt (lt_of_le_of_lt
            (fullGo_le_mem_white recF b rest _ _ mv1 hmv1) h1)
        rw [List.find?_cons_of_neg _ (by simpa using hne0)]
        exact ih _ (some mv0) ⟨mv1, hmv1, h1⟩
      · have hstop : ∀ mv ∈ rest, ¬ better Player.white
            (recF (childBoard b Player.white mv) Player.black).1
            (recF (childBoard b Player.white mv0) Player.black).1 := by
          intro mv hmv hb
          exact hrest ⟨mv, hmv, hb⟩
        rw [fullGo_no_update recF b Player.white rest _ (some mv0) hstop]
        rw [List.find?_cons_of_pos _ (by simp)]
    · rw [fullGo_cons_white, if_neg hbet]
      have hmvw' : mvw ∈ rest := by
        rcases List.mem_cons.mp hmvw with hh | hh
        · subst hh
          exact absurd hw hbet
        · exact hh
      have hne0 : (recF (childBoard b Player.white mv0) Player.black).1 ≠
          (fullGo recF b Player.white rest best bm).1 :=
        ne_of_gt (lt_of_le_of_lt (fullGo_le_mem_white recF b rest best bm
          mvw hmvw') (lt_of_lt_of_le hw (not_lt.mp hbet)))
      rw [List.find?_cons_of_neg _ (by simpa using hne0)]
      exact ih best bm ⟨mvw, hmvw', hw⟩

/-- C5.  In the recursive case of `_minimax` the best score is updated
only on strict improvement (`>` for BLACK, `<` for WHITE), so the move
returned is the first move in the enumeration order of
`get_legal_moves_for_player` that attains the returned score — later
tied moves never overwrite it — and that enumeration is row-major over
the 8×8 grid. -/
theorem first_move_tiebreak (ev : Board → ℤ) (d : ℕ) (b : Board)
    (p : Player) (hne : getLegalMovesForPlayer b p ≠ []) :
    (minimaxAB ev (d + 1) b p ⊥ ⊤).2 =
      (getLegalMovesForPlayer b p).find? (fun mv =>
        decide ((minimaxFull ev d (childBoard b p mv) p.opponent).1 =
          (minimaxAB ev (d + 1) b p ⊥ ⊤).1)) ∧
    (getLegalMovesForPlayer b p).Pairwise rowMajorLt := by
  constructor
  · rw [minimaxAB_eq_minimaxFull, minimaxFull_succ,
      if_neg (by simpa using hne)]
    obtain ⟨mv0, hmv0⟩ := List.exists_mem_of_ne_nil _ hne
    cases p with
    | black =>
      obtain ⟨n, hn⟩ := minimaxFull_fin ev d
        (childBoard b Player.black mv0) Player.white
      exact fullGo_find_black (minimaxFull ev d) b
        (getLegalMovesForPlayer b Player.black) (sentinel Player.black) none
        ⟨mv0, hmv0, by rw [hn]; exact bot_lt_fin n⟩
    | white =>
      obtain ⟨n, hn⟩ := minimaxFull_fin ev d
        (childBoard b Player.white mv0) Player.black
      exact fullGo_find_white (minimaxFull ev d) b
        (getLegalMovesForPlayer b Player.white) (sentinel Player.white) none
        ⟨mv0, hmv0, by rw [hn]; exact fin_lt_top n⟩
  · exact getLegalMoves_pairwise b p

/-- Witness for C5: at depth 1 on the initial board all four of BLACK's
moves tie, and the first one in row-major order is returned. -/
theorem first_move_tiebreak_witness :
    getLegalMovesForPlayer initialBoard Player.black ≠ [] ∧
    ((minimaxAB coinScore 1 initialBoard Player.black ⊥ ⊤).2 =
      (getLegalMovesForPlayer initialBoard Player.black).find? (fun mv =>
        decide ((minimaxFull coinScore 0
            (childBoard initialBoard Player.black mv)
            Player.black.opponent).1 =
          (minimaxAB coinScore 1 initialBoard Player.black ⊥ ⊤).1)) ∧
      (getLegalMovesForPlayer initialBoard Player.black).Pairwise rowMajorLt) :=
  ⟨by decide,
    first_move_tiebreak coinScore 0 initialBoard Player.black (by decide)⟩

/-! ### Totality of the read-only queries (the checked layer) -/

/-- `(some a).bind f` evaluated. -/
theorem option_some_bind {α β : Type} (a : α) (f : α → Option β) :
    (some a).bind f = f a := rfl

/-- `(some a).map f` evaluated. -/
theorem option_some_map {α β : Type} (a : α) (f : α → β) :
    (some a).map f = some (f a) := rfl

/-- The capture walk with every board read checked: a read outside the
grid (an `IndexError`) propagates as `none`, and exhausting the fuel
also yields `none`, so a `some` result certifies that the `while` loop
of `_get_endpoints` exits on its own condition with no failing read.
The loop condition evaluates exactly as the source's short-circuit
`and`: `valid_coordinate` first, the cell read only after it holds. -/
def walkC (b : Board) (oppVal : ℤ) (dx dy : ℤ) :
    ℕ → ℤ → ℤ → Bool → Option (ℤ × ℤ × Bool)
  | 0, _, _, _ => none
  | f + 1, x, y, s =>
    if validCoordinate x y then
      (cell? b x y).bind fun pc =>
        if pc.value = oppVal then
          walkC b oppVal dx dy f (x + dx) (y + dy) true
        else some (x, y, s)
    else some (x, y, s)

/-- One direction of `_get_endpoints` with checked reads: the outer
`none` is a read error, the inner option is the direction's result.
The post-loop reads follow the source's short-circuit order:
`sandwiched`, then `valid_coordinate`, and only then the cell read. -/
def dirEndpointC (b : Board) (p : Player) (row col : ℤ) (d : ℤ × ℤ) :
    Option (Option (ℤ × ℤ × ℤ × ℤ)) :=
  (walkC b p.opponent.value d.1 d.2 walkFuel (row + d.1) (col + d.2)
    false).bind fun w =>
    if w.2.2 = true ∧ validCoordinate w.1 w.2.1 = true then
      (cell? b w.1 w.2.1).map fun pc =>
        if pc.value = p.value then some (d.1, d.2, w.1, w.2.1) else none
    else some none

/-- `_get_endpoints` with checked reads, visiting the directions in
source order and propagating any read error. -/
def getEndpointsC (b : Board) (p : Player) (row col : ℤ) :
    Option (List (ℤ × ℤ × ℤ × ℤ)) :=
  dirs.foldr (fun d acc =>
    (dirEndpointC b p row col d).bind fun r =>
      acc.map fun l => r.toList ++ l) (some [])

/-- `is_legal_move` with checked reads: the `and` chain short-circuits,
so the target cell is read only after the bounds check succeeds and the
walks run only on an empty target. -/
def isLegalMoveC (b : Board) (p : Player) (row col : ℤ) : Option Bool :=
  if validCoordinate row col then
    (cell? b row col).bind fun pc =>
      if pc = Piece.noPiece then
        (getEndpointsC b p row col).map fun es => !es.isEmpty
      else some false
  else some false

/-- `get_legal_moves_for_player` with checked reads over the row-major
enumeration. -/
def getLegalMovesC (b : Board) (p : Player) : Option (List (ℤ × ℤ)) :=
  allMoves.foldr (fun mv acc =>
    (isLegalMoveC b p mv.1 mv.2).bind fun leg =>
      acc.map fun l => if leg then mv :: l else l) (some [])

/-- One cell of the `get_num_pieces` scan with a checked read (the
source reads `board[row][col]` here with no guard; the loop bounds keep
the indices inside an 8×8 grid). -/
def countStepC (b : Board) (row col : ℤ) (a : ℕ × ℕ) : Option (ℕ × ℕ) :=
  (cell? b row col).map fun pc =>
    if pc = Piece.black then (a.1 + 1, a.2)
    else if pc = Piece.white then (a.1, a.2 + 1)
    else a

/-- `get_num_pieces` with checked reads: the source's nested loops over
`range(8) × range(8)`, aborting on the first failing read. -/
def getNumPiecesC (b : Board) : Option (ℕ × ℕ) :=
  (List.range boardSize).foldl (fun oacc (row : ℕ) =>
    (List.range boardSize).foldl (fun oacc2 (col : ℕ) =>
      oacc2.bind fun a => countStepC b (row : ℤ) (col : ℤ) a) oacc)
    (some (0, 0))

/-- `GreedyBot.coin_score` with checked reads. -/
def coinScoreC (b : Board) : Option ℤ :=
  (getNumPiecesC b).map fun a => (a.1 : ℤ) - (a.2 : ℤ)

/-- `CornersBot.corners_score` with checked reads of the four corner
cells, in source order. -/
def cornersScoreC (b : Board) : Option ℤ :=
  (cell? b 0 0).bind fun c1 =>
    (cell? b 0 (boardSize - 1 : ℕ)).bind fun c2 =>
      (cell? b (boardSize - 1 : ℕ) 0).bind fun c3 =>
        (cell? b (boardSize - 1 : ℕ) (boardSize - 1 : ℕ)).map fun c4 =>
          c1.value + c2.value + c3.value + c4.value

/-- `CornersBot.evaluate` with checked reads. -/
def cornersEvalC (b : Board) : Option ℤ :=
  (coinScoreC b).bind fun cs =>
    (cornersScoreC b).map fun crs => cs + 25 * crs

/-- On a well-formed board the checked walk returns `some` of the total
walk's result whenever the loop condition provably fails within the
fuel. -/
theorem walkC_eq {b : Board} (hb : WFBoard b) (oppVal dx dy : ℤ) :
    ∀ (f : ℕ) (x y : ℤ) (s : Bool),
      (¬ ∀ i : ℕ, i < f → WalkCond b oppVal (x + i * dx) (y + i * dy)) →
      walkC b oppVal dx dy f x y s =
        some (walkRay b oppVal dx dy f x y s) := by
  intro f
  induction f with
  | zero =>
    intro x y s hstop
    exact absurd (fun i hi => absurd hi (by omega)) hstop
  | succ f ih =>
    intro x y s hstop
    by_cases hc : WalkCond b oppVal x y
    · obtain ⟨pc, hpc⟩ :=
        Option.isSome_iff_exists.mp (cell?_isSome_of_wf hb hc.1)
      have hcd : cellD b x y = pc := by rw [cellD, hpc]; rfl
      have hval : pc.value = oppVal := by rw [← hcd]; exact hc.2
      have hC1 : walkC b oppVal dx dy (f + 1) x y s =
          (if validCoordinate x y = true then
            (cell? b x y).bind fun pc =>
              if pc.value = oppVal then
                walkC b oppVal dx dy f (x + dx) (y + dy) true
              else some (x, y, s)
          else some (x, y, s)) := rfl
      have hC : walkC b oppVal dx dy (f + 1) x y s =
          walkC b oppVal dx dy f (x + dx) (y + dy) true := by
        rw [hC1, if_pos hc.1, hpc, option_some_bind, if_pos hval]
      have hR1 : walkRay b oppVal dx dy (f + 1) x y s =
          (if WalkCond b oppVal x y then
            walkRay b oppVal dx dy f (x + dx) (y + dy) true
          else (x, y, s)) := rfl
      have hR : walkRay b oppVal dx dy (f + 1) x y s =
          walkRay b oppVal dx dy f (x + dx) (y + dy) true := by
        rw [hR1, if_pos hc]
      rw [hC, hR]
      apply ih
      intro hall
      apply hstop
      intro i hi
      match i with
      | 0 => simpa using hc
      | i + 1 =>
        have hpx : x + dx + (i : ℤ) * dx = x + ((i + 1 : ℕ) : ℤ) * dx := by
          push_cast; ring
        have hpy : y + dy + (i : ℤ) * dy = y + ((i + 1 : ℕ) : ℤ) * dy := by
          push_cast; ring
        exact (WalkCond_congr b oppVal hpx hpy).mp (hall i (by omega))
    · have hR : walkRay b oppVal dx dy (f + 1) x y s = (x, y, s) := by
        unfold walkRay
        rw [if_neg hc]
      rw [hR]
      by_cases hv : validCoordinate x y = true
      · obtain ⟨pc, hpc⟩ :=
          Option.isSome_iff_exists.mp (cell?_isSome_of_wf hb hv)
        have hcd : cellD b x y = pc := by rw [cellD, hpc]; rfl
        have hval : ¬ pc.value = oppVal := by
          intro h
          exact hc ⟨hv, by rw [hcd]; exact h⟩
        unfold walkC
        rw [if_pos hv, hpc, option_some_bind, if_neg hval]
      · unfold walkC
        rw [if_neg hv]

/-- The checked walk of `_get_endpoints` never fails: the 9-check fuel
outlasts any run of in-bounds cells along a compass direction. -/
theorem walkC_eq_ray {b : Board} (hb : WFBoard b) (p : Player)
    {d : ℤ × ℤ} (hd : d ∈ dirs) (row col : ℤ) :
    walkC b p.opponent.value d.1 d.2 walkFuel (row + d.1) (col + d.2)
        false =
      some (walkRay b p.opponent.value d.1 d.2 walkFuel (row + d.1)
        (col + d.2) false) := by
  apply walkC_eq hb
  intro hall
  apply ray_not_all_valid hd (row + d.1) (col + d.2)
  intro i hi
  exact (hall i (by unfold walkFuel; omega)).1

theorem dirEndpointC_eq {b : Board} (hb : WFBoard b) (p : Player)
    {d : ℤ × ℤ} (hd : d ∈ dirs) (row col : ℤ) :
    dirEndpointC b p row col d = some (dirEndpoint b p row col d) := by
  obtain ⟨w, hw⟩ : ∃ w, walkRay b p.opponent.value d.1 d.2 walkFuel
      (row + d.1) (col + d.2) false = w := ⟨_, rfl⟩
  unfold dirEndpointC dirEndpoint
  rw [walkC_eq_ray hb p hd row col, hw, option_some_bind]
  by_cases h1 : w.2.2 = true ∧ validCoordinate w.1 w.2.1 = true
  · obtain ⟨pc, hpc⟩ :=
      Option.isSome_iff_exists.mp (cell?_isSome_of_wf hb h1.2)
    have hcd : cellD b w.1 w.2.1 = pc := by rw [cellD, hpc]; rfl
    rw [if_pos h1, hpc, option_some_map]
    by_cases h2 : pc.value = p.value
    · rw [if_pos h2, if_pos ⟨h1.1, h1.2, by rw [hcd]; exact h2⟩]
    · rw [if_neg h2, if_neg ?hc]
      case hc =>
        rintro ⟨hf, hv, hval⟩
        rw [hcd] at hval
        exact h2 hval
  · rw [if_neg h1, if_neg ?hc2]
    case hc2 =>
      rintro ⟨hf, hv, _⟩
      exact h1 ⟨hf, hv⟩

/-- `filterMap` as a right fold, matching the checked fold's shape. -/
theorem filterMap_eq_foldr_toList {α β : Type} (f : α → Option β)
    (l : List α) :
    l.filterMap f = l.foldr (fun a acc => (f a).toList ++ acc) [] := by
  induction l with
  | nil => rfl
  | cons a l ih =>
    rw [List.filterMap_cons, List.foldr_cons, ← ih]
    cases f a <;> simp

/-- Lifting a pointwise `some` equation through a right fold. -/
theorem foldr_lift {α β : Type} (F : α → β → β)
    (G : α → Option β → Option β) (init : β) (l : List α) :
    (∀ a ∈ l, ∀ acc : β, G a (some acc) = some (F a acc)) →
    l.foldr G (some init) = some (l.foldr F init) := by
  induction l with
  | nil => intro _; rfl
  | cons a l ih =>
    intro hG
    rw [List.foldr_cons, List.foldr_cons,
      ih (fun x hx acc => hG x (List.mem_cons_of_mem a hx) acc),
      hG a (List.mem_cons_self a l) (l.foldr F init)]

/-- Lifting a pointwise `some` equation through a left fold. -/
theorem foldl_lift {α β : Type} (F : β → α → β)
    (G : Option β → α → Option β) (l : List α) :
    (∀ a ∈ l, ∀ acc : β, G (some acc) a = some (F acc a)) →
    ∀ init : β, l.foldl G (some init) = some (l.foldl F init) := by
  induction l with
  | nil => intro _ init; rfl
  | cons a l ih =>
    intro hG init
    rw [List.foldl_cons, List.foldl_cons,
      hG a (List.mem_cons_self a l) init]
    exact ih (fun x hx acc => hG x (List.mem_cons_of_mem a hx) acc)
      (F init a)

theorem getEndpointsC_eq {b : Board} (hb : WFBoard b) (p : Player)
    (row col : ℤ) :
    getEndpointsC b p row col = some (getEndpoints b p row col) := by
  unfold getEndpointsC getEndpoints
  rw [filterMap_eq_foldr_toList]
  apply foldr_lift
  intro d hd acc
  rw [dirEndpointC_eq hb p hd row col, option_some_bind, option_some_map]

theorem isLegalMoveC_eq {b : Board} (hb : WFBoard b) (p : Player)
    (row col : ℤ) :
    isLegalMoveC b p row col = some (isLegalMove b p row col) := by
  unfold isLegalMoveC isLegalMove
  by_cases hv : validCoordinate row col = true
  · obtain ⟨pc, hpc⟩ :=
      Option.isSome_iff_exists.mp (cell?_isSome_of_wf hb hv)
    have hcd : cellD b row col = pc := by rw [cellD, hpc]; rfl
    rw [if_pos hv, hpc, option_some_bind, hv, hcd]
    by_cases hnp : pc = Piece.noPiece
    · rw [if_pos hnp, getEndpointsC_eq hb p row col, option_some_map]
      simp [hnp]
    · rw [if_neg hnp]
      simp [hnp]
  · have hvf : validCoordinate row col = false := by
      cases hvb : validCoordinate row col
      · rfl
      · exact absurd hvb hv
    rw [if_neg hv, hvf]
    simp

theorem getLegalMovesC_eq {b : Board} (hb : WFBoard b) (p : Player) :
    getLegalMovesC b p = some (getLegalMovesForPlayer b p) := by
  rw [getLegalMoves_eq_filter, List.filter_eq_foldr]
  unfold getLegalMovesC
  apply foldr_lift
  intro mv hmv acc
  rw [isLegalMoveC_eq hb p mv.1 mv.2, option_some_bind, option_some_map]
  cases hleg : isLegalMove b p mv.1 mv.2 <;> simp [hleg]

theorem getNumPiecesC_eq {b : Board} (hb : WFBoard b) :
    getNumPiecesC b = some (getNumPieces b) := by
  unfold getNumPiecesC getNumPieces
  apply foldl_lift
  intro row hrow acc
  apply foldl_lift
  intro col hcol acc2
  rw [option_some_bind]
  have h1 := List.mem_range.mp hrow
  have h2 := List.mem_range.mp hcol
  have hv : validCoordinate (row : ℤ) (col : ℤ) = true := by
    rw [validCoordinate_iff]
    unfold boardSize at h1 h2
    omega
  obtain ⟨pc, hpc⟩ :=
    Option.isSome_iff_exists.mp (cell?_isSome_of_wf hb hv)
  have hcd : cellD b (row : ℤ) (col : ℤ) = pc := by rw [cellD, hpc]; rfl
  rw [countStepC, hpc, option_some_map, hcd]

theorem coinScoreC_eq {b : Board} (hb : WFBoard b) :
    coinScoreC b = some (coinScore b) := by
  unfold coinScoreC coinScore
  rw [getNumPiecesC_eq hb, option_some_map]

theorem cornersScoreC_eq {b : Board} (hb : WFBoard b) :
    cornersScoreC b = some (cornersScore b) := by
  have hv1 : validCoordinate (0 : ℤ) (0 : ℤ) = true := by decide
  have hv2 : validCoordinate (0 : ℤ) ((boardSize - 1 : ℕ) : ℤ) = true := by
    decide
  have hv3 : validCoordinate ((boardSize - 1 : ℕ) : ℤ) (0 : ℤ) = true := by
    decide
  have hv4 : validCoordinate ((boardSize - 1 : ℕ) : ℤ)
      ((boardSize - 1 : ℕ) : ℤ) = true := by decide
  obtain ⟨c1, h1⟩ := Option.isSome_iff_exists.mp (cell?_isSome_of_wf hb hv1)
  obtain ⟨c2, h2⟩ := Option.isSome_iff_exists.mp (cell?_isSome_of_wf hb hv2)
  obtain ⟨c3, h3⟩ := Option.isSome_iff_exists.mp (cell?_isSome_of_wf hb hv3)
  obtain ⟨c4, h4⟩ := Option.isSome_iff_exists.mp (cell?_isSome_of_wf hb hv4)
  unfold cornersScoreC cornersScore cellD
  rw [h1, h2, h3, h4]
  rfl

theorem cornersEvalC_eq {b : Board} (hb : WFBoard b) :
    cornersEvalC b = some (cornersEval b) := by
  simp only [cornersEvalC, cornersEval, coinScoreC_eq hb,
    cornersScoreC_eq hb, option_some_bind, option_some_map]

/-- C9.  The read-only queries are total: on a well-formed board, with
every board read checked (`none` models an `IndexError`),
`is_legal_move`, `get_legal_moves_for_player`, `get_num_pieces` and both
evaluators return `some` of their total embeddings' values — for
`is_legal_move` at every integer coordinate pair, including negative and
out-of-range ones, because the bounds check short-circuits before any
cell access and the capture walk tests `valid_coordinate` before each
read — and `is_legal_move` is `false` whenever `valid_coordinate` is. -/
theorem queries_total (b : Board) (hb : WFBoard b) (p : Player)
    (row col : ℤ) :
    isLegalMoveC b p row col = some (isLegalMove b p row col) ∧
    (validCoordinate row col = false → isLegalMove b p row col = false) ∧
    getLegalMovesC b p = some (getLegalMovesForPlayer b p) ∧
    getNumPiecesC b = some (getNumPieces b) ∧
    coinScoreC b = some (coinScore b) ∧
    cornersEvalC b = some (cornersEval b) := by
  refine ⟨isLegalMoveC_eq hb p row col, ?_, getLegalMovesC_eq hb p,
    getNumPiecesC_eq hb, coinScoreC_eq hb, cornersEvalC_eq hb⟩
  intro hvf
  unfold isLegalMove
  rw [hvf]
  simp

theorem queries_total_witness :
    WFBoard initialBoard ∧
      (isLegalMoveC initialBoard Player.black (-3) 100 =
          some (isLegalMove initialBoard Player.black (-3) 100) ∧
        (validCoordinate (-3) 100 = false →
          isLegalMove initialBoard Player.black (-3) 100 = false) ∧
        getLegalMovesC initialBoard Player.black =
          some (getLegalMovesForPlayer initialBoard Player.black) ∧
        getNumPiecesC initialBoard = some (getNumPieces initialBoard) ∧
        coinScoreC initialBoard = some (coinScore initialBoard) ∧
        cornersEvalC initialBoard = some (cornersEval initialBoard)) :=
  ⟨by decide, queries_total initialBoard (by decide) Player.black (-3) 100⟩

/-! ### The search works only on clones -/

/-- A heap of `Game` objects: Python `Game`s are mutable references, so
the embedding gives each live game a slot in a store and threads the
store through the search.  `Game(self.board)` deep-copies in
`__init__`, so a clone is a fresh slot holding an equal board and
sharing nothing mutable with its source; mutation replaces the slot. -/
abbrev Store := List Board

/-- `game.clone()`: allocate a fresh slot whose board equals slot `i`,
returning the new store and the new game's index. -/
def cloneS (s : Store) (i : ℕ) : Store × ℕ :=
  (s ++ [s.getD i []], s.length)

/-- `new_game.place_piece(player, row, col)` inside the `_minimax`
loop: mutate slot `i` in place.  The search plays only legal moves, so
the `ValueError` branch is unreachable there and the `getD` fallback of
`childBoard` models it as a no-op (see `place_piece_raises_iff`). -/
def placeS (s : Store) (i : ℕ) (p : Player) (mv : ℤ × ℤ) : Store :=
  s.set i (childBoard (s.getD i []) p mv)

/-- The store after one `clone` + `place_piece` of the loop body. -/
def stepStore (s : Store) (i : ℕ) (p : Player) (mv : ℤ × ℤ) : Store :=
  placeS (cloneS s i).1 (cloneS s i).2 p mv

/-- The `for row, col in legal_moves` loop of `_minimax` on the store:
each move clones the game in slot `i`, plays the move on the clone, and
recurses on the clone's slot; the store returned by the recursive call
is threaded into the next iteration. -/
def abGoS
    (rec : Store → ℕ → Player → XInt → XInt →
      Store × (XInt × Option (ℤ × ℤ)))
    (s : Store) (i : ℕ) (p : Player) :
    List (ℤ × ℤ) → XInt → XInt → XInt → Option (ℤ × ℤ) →
      Store × (XInt × Option (ℤ × ℤ))
  | [], _, _, best, bm => (s, best, bm)
  | mv :: rest, a, be, best, bm =>
    let c := cloneS s i
    let s1 := placeS c.1 c.2 p mv
    let r := rec s1 c.2 p.opponent a be
    let cur := r.2.1
    let best' := if better p cur best then cur else best
    let bm' := if better p cur best then some mv else bm
    let a' := if p = .black then max a cur else a
    let be' := if p = .white then min be cur else be
    if be' ≤ a' then (r.1, best', bm')
    else abGoS rec r.1 i p rest a' be' best' bm'

/-- `MinimaxBot._minimax` on the store: the game searched lives in slot
`i` and is only read, never written. -/
def minimaxABS (ev : Board → ℤ) :
    ℕ → Store → ℕ → Player → XInt → XInt →
      Store × (XInt × Option (ℤ × ℤ))
  | 0, s, i, _, _, _ => (s, XInt.fin (ev (s.getD i [])), none)
  | d + 1, s, i, p, a, be =>
    let moves := getLegalMovesForPlayer (s.getD i []) p
    if moves.isEmpty then (s, XInt.fin (ev (s.getD i [])), none)
    else abGoS (minimaxABS ev d) s i p moves a be (sentinel p) none

/-- `MinimaxBot.get_best_move` on the store: full window, returning the
final store and the move. -/
def getBestMoveS (ev : Board → ℤ) (depth : ℕ) (s : Store) (i : ℕ)
    (p : Player) : Store × Option (ℤ × ℤ) :=
  ((minimaxABS ev depth s i p ⊥ ⊤).1,
    (minimaxABS ev depth s i p ⊥ ⊤).2.2)

theorem getD_append_left (s t : Store) {j : ℕ} (hj : j < s.length) :
    (s ++ t).getD j [] = s.getD j [] := by
  rw [List.getD_eq_getElem?_getD, List.getD_eq_getElem?_getD,
    List.getElem?_append_left hj]

theorem getD_concat_length (s : Store) (x : Board) :
    (s ++ [x]).getD s.length [] = x := by
  rw [List.getD_eq_getElem?_getD, List.getElem?_concat_length]
  rfl

theorem concat_set_last (s : Store) (x y : Board) :
    (s ++ [x]).set s.length y = s ++ [y] := by
  induction s with
  | nil => rfl
  | cons a s ih =>
    show a :: (s ++ [x]).set s.length y = a :: (s ++ [y])
    rw [ih]

/-- The loop body's fresh store: the clone of slot `i` with the move
played on it, appended after all existing slots. -/
theorem stepStore_eq (s : Store) (i : ℕ) (p : Player) (mv : ℤ × ℤ) :
    stepStore s i p mv = s ++ [childBoard (s.getD i []) p mv] := by
  show (s ++ [s.getD i []]).set s.length
      (childBoard ((s ++ [s.getD i []]).getD s.length []) p mv) =
    s ++ [childBoard (s.getD i []) p mv]
  rw [getD_concat_length, concat_set_last]

/-- One step of the store-threaded loop, unrolled. -/
theorem abGoS_cons
    (rec : Store → ℕ → Player → XInt → XInt →
      Store × (XInt × Option (ℤ × ℤ)))
    (s : Store) (i : ℕ) (p : Player) (mv : ℤ × ℤ)
    (rest : List (ℤ × ℤ)) (a be best : XInt) (bm : Option (ℤ × ℤ)) :
    abGoS rec s i p (mv :: rest) a be best bm =
      if (if p = Player.white
            then min be (rec (stepStore s i p mv) s.length
              p.opponent a be).2.1 else be) ≤
          (if p = Player.black
            then max a (rec (stepStore s i p mv) s.length
              p.opponent a be).2.1 else a) then
        ((rec (stepStore s i p mv) s.length p.opponent a be).1,
          if better p (rec (stepStore s i p mv) s.length
              p.opponent a be).2.1 best
            then (rec (stepStore s i p mv) s.length p.opponent a be).2.1
            else best,
          if better p (rec (stepStore s i p mv) s.length
              p.opponent a be).2.1 best
            then some mv else bm)
      else abGoS rec
        (rec (stepStore s i p mv) s.length p.opponent a be).1 i p rest
        (if p = Player.black
          then max a (rec (stepStore s i p mv) s.length
            p.opponent a be).2.1 else a)
        (if p = Player.white
          then min be (rec (stepStore s i p mv) s.length
            p.opponent a be).2.1 else be)
        (if better p (rec (stepStore s i p mv) s.length
            p.opponent a be).2.1 best
          then (rec (stepStore s i p mv) s.length p.opponent a be).2.1
          else best)
        (if better p (rec (stepStore s i p mv) s.length
            p.opponent a be).2.1 best
          then some mv else bm) := rfl

/-- Loop invariant of the store-threaded search: the store only grows,
every slot that existed on entry keeps its board, and the returned
`(score, move)` pair is that of the pure, board-value loop. -/
theorem abGoS_spec (ev : Board → ℤ) (d : ℕ)
    (ihd : ∀ (s : Store) (i : ℕ) (p : Player) (a be : XInt),
      i < s.length →
      s.length ≤ (minimaxABS ev d s i p a be).1.length ∧
      (∀ j : ℕ, j < s.length →
        (minimaxABS ev d s i p a be).1.getD j [] = s.getD j []) ∧
      (minimaxABS ev d s i p a be).2 =
        minimaxAB ev d (s.getD i []) p a be)
    (p : Player) :
    ∀ (l : List (ℤ × ℤ)) (s : Store) (i : ℕ) (a be best : XInt)
      (bm : Option (ℤ × ℤ)), i < s.length →
      s.length ≤ (abGoS (minimaxABS ev d) s i p l a be best bm).1.length ∧
      (∀ j : ℕ, j < s.length →
        (abGoS (minimaxABS ev d) s i p l a be best bm).1.getD j [] =
          s.getD j []) ∧
      (abGoS (minimaxABS ev d) s i p l a be best bm).2 =
        abGo (minimaxAB ev d) (s.getD i []) p l a be best bm := by
  intro l
  induction l with
  | nil =>
    intro s i a be best bm hi
    exact ⟨le_refl _, fun j hj => rfl, rfl⟩
  | cons mv rest ihl =>
    intro s i a be best bm hi
    obtain ⟨hrlen, hrpres, hrval⟩ :=
      ihd (s ++ [childBoard (s.getD i []) p mv]) s.length p.opponent a be
        (by simp)
    rw [getD_concat_length] at hrval
    have hrlen' : s.length ≤ (minimaxABS ev d
        (s ++ [childBoard (s.getD i []) p mv]) s.length
        p.opponent a be).1.length := by
      refine le_trans ?_ hrlen
      simp
    have hrpres' : ∀ j : ℕ, j < s.length →
        (minimaxABS ev d (s ++ [childBoard (s.getD i []) p mv]) s.length
          p.opponent a be).1.getD j [] = s.getD j [] := by
      intro j hj
      rw [hrpres j (by simp; omega), getD_append_left _ _ hj]
    rw [abGoS_cons, stepStore_eq,
      abGo_cons (minimaxAB ev d) (s.getD i []) p mv rest a be best bm,
      ← hrval]
    by_cases hcut : (if p = Player.white
          then min be (minimaxABS ev d
            (s ++ [childBoard (s.getD i []) p mv]) s.length
            p.opponent a be).2.1 else be) ≤
        (if p = Player.black
          then max a (minimaxABS ev d
            (s ++ [childBoard (s.getD i []) p mv]) s.length
            p.opponent a be).2.1 else a)
    · rw [if_pos hcut, if_pos hcut]
      exact ⟨hrlen', hrpres', rfl⟩
    · rw [if_neg hcut, if_neg hcut]
      obtain ⟨hl2, hp2, hv2⟩ := ihl
        (minimaxABS ev d (s ++ [childBoard (s.getD i []) p mv]) s.length
          p.opponent a be).1 i _ _ _ _ (lt_of_lt_of_le hi hrlen')
      refine ⟨le_trans hrlen' hl2, ?_, ?_⟩
      · intro j hj
        rw [hp2 j (lt_of_lt_of_le hj hrlen'), hrpres' j hj]
      · rw [hv2, hrpres' i hi]

/-- Depth induction for the store-threaded `_minimax`: the caller's
slot (and every other pre-existing slot) is never written, and the
result projects to the pure search's result. -/
theorem minimaxABS_spec (ev : Board → ℤ) :
    ∀ (d : ℕ) (s : Store) (i : ℕ) (p : Player) (a be : XInt),
      i < s.length →
      s.length ≤ (minimaxABS ev d s i p a be).1.length ∧
      (∀ j : ℕ, j < s.length →
        (minimaxABS ev d s i p a be).1.getD j [] = s.getD j []) ∧
      (minimaxABS ev d s i p a be).2 =
        minimaxAB ev d (s.getD i []) p a be := by
  intro d
  induction d with
  | zero =>
    intro s i p a be hi
    exact ⟨le_refl _, fun j hj => rfl, rfl⟩
  | succ d ih =>
    intro s i p a be hi
    have hS : minimaxABS ev (d + 1) s i p a be =
        (if (getLegalMovesForPlayer (s.getD i []) p).isEmpty = true
          then (s, XInt.fin (ev (s.getD i [])), none)
          else abGoS (minimaxABS ev d) s i p
            (getLegalMovesForPlayer (s.getD i []) p) a be
            (sentinel p) none) := rfl
    rw [hS, minimaxAB_succ]
    by_cases hemp :
        (getLegalMovesForPlayer (s.getD i []) p).isEmpty = true
    · rw [if_pos hemp, if_pos hemp]
      exact ⟨le_refl _, fun j hj => rfl, rfl⟩
    · rw [if_neg hemp, if_neg hemp]
      exact abGoS_spec ev d ih p
        (getLegalMovesForPlayer (s.getD i []) p) s i a be
        (sentinel p) none hi

/-- C8.  The search never mutates the caller's game: `get_best_move` on
the game in slot `i` of the store leaves every pre-existing slot — in
particular the caller's — holding the board it held before the call;
every explored move is played only on a freshly-allocated clone, and
the returned move is that of the pure, board-value search. -/
theorem search_no_mutation (ev : Board → ℤ) (depth : ℕ) (s : Store)
    (i : ℕ) (p : Player) (hi : i < s.length) :
    (∀ j : ℕ, j < s.length →
      (getBestMoveS ev depth s i p).1.getD j [] = s.getD j []) ∧
    (getBestMoveS ev depth s i p).2 =
      getBestMove ev depth (s.getD i []) p := by
  obtain ⟨hlen, hpres, hval⟩ := minimaxABS_spec ev depth s i p ⊥ ⊤ hi
  refine ⟨hpres, ?_⟩
  show (minimaxABS ev depth s i p ⊥ ⊤).2.2 =
    (minimaxAB ev depth (s.getD i []) p ⊥ ⊤).2
  rw [hval]

theorem search_no_mutation_witness :
    0 < ([initialBoard] : Store).length ∧
    (getBestMoveS coinScore 1 [initialBoard] 0 Player.black).1.getD 0 [] =
      ([initialBoard] : Store).getD 0 [] ∧
    (getBestMoveS coinScore 1 [initialBoard] 0 Player.black).2 =
      getBestMove coinScore 1 (([initialBoard] : Store).getD 0 [])
        Player.black :=
  ⟨by decide,
    (search_no_mutation coinScore 1 [initialBoard] 0 Player.black
      (by decide)).1 0 (by decide),
    (search_no_mutation coinScore 1 [initialBoard] 0 Player.black
      (by decide)).2⟩

end Othello
